import Mathlib

/-!
The memo table (`memo.Table`): a bounded, TTL-based memoization table.

Shallow embedding of `src/memo/table.go`.

Modelling conventions.

* A Go `interface{}` (`Key`, `Value`) is `Option α`: `none` is the `nil` interface.
* `time.Time` is an `Int` instant; the zero `time.Time{}` (the one `IsZero` recognises) is the
  `none` of `Option Int`, so `time.Now().Add(d)` is never the zero time.
  `time.Duration` is an `Int`.
* `uint64` is a `Nat` reduced modulo `2 ^ 64` where the source increments it.
* Every call of `time.Now()` is an explicit argument of the operation that makes it.
* `*list.Element` is a natural number, the identity of the element; `Table.store e` is the
  container `e.Value` points to.  `container/list` operations on an element that is not in the
  list are no-ops, as in the Go library.
* `ctnPool` (a process-wide `sync.Pool`) is the list `Table.pool`; `ctnPool.Get()` may return any
  pooled container or a new one, which is the argument `pick` of the operations that allocate.
* The exchanger is recorded: `Table.calls` lists its invocations in order.
* Operations run one after another (the locks serialise them); the goroutine started by `add`
  for an evicted container runs at the point where it is started.
* A loop that may fail to exit takes a fuel argument and returns `none` when the fuel runs out.
* The locking of `tb.rw` is modelled apart from the state: `LockEv` lists what a method does to
  the lock and to the two indexes, in program order.
-/

set_option linter.unusedSectionVars false

namespace Memo

/-- A `*time.Timer` armed by `time.AfterFunc`: the instant it fires at, the `seq` its callback
captured, and whether it is still armed (`Stop` disarms it). -/
structure Timer where
  fireAt : Int
  seq : Nat
  active : Bool
deriving DecidableEq, Repr

/-- The `container` struct (the lock `rw` and the back-reference `table` carry no data). -/
structure container (K V : Type) where
  key : Option K
  liveTime : Option Int
  timer : Option Timer
  data : Option V
  closed : Bool
  seq : Nat
deriving DecidableEq, Repr

/-- One invocation `exchanger(key, new, eld, release)`. -/
structure Event (K V : Type) where
  key : Option K
  new : Option V
  eld : Option V
  release : Bool
deriving DecidableEq, Repr

/-- The `SetOption` struct. -/
structure SetOption where
  KeepLiveDuration : Option Int
deriving DecidableEq, Repr

/-- The `KeepLiveOption` struct. -/
structure KeepLiveOption where
  Duration : Option Int
deriving DecidableEq, Repr

/-- The `Table` struct together with the process state its methods act on: the element store,
the next fresh element identity, the container pool and the record of exchanger calls. -/
structure Table (K V : Type) where
  keepLiveDuration : Int
  maxEntry : Int
  ll : List Nat
  mp : List (Option K × Nat)
  seq : Nat
  store : Nat → container K V
  fresh : Nat
  pool : List (container K V)
  calls : List (Event K V)

section Defs

variable {K V : Type} [DecidableEq K]

/-- The container `ctnPool.New` builds: `&container{}`. -/
def zeroContainer : container K V :=
  { key := none, liveTime := none, timer := none, data := none, closed := false, seq := 0 }

/-- Map lookup `mp[key]`; `none` is the `nil` element. -/
def mpGet : List (Option K × Nat) → Option K → Option Nat
  | [], _ => none
  | (k, e) :: m, key => if k = key then some e else mpGet m key

/-- Map deletion `delete(mp, key)`. -/
def mpDelete (m : List (Option K × Nat)) (key : Option K) : List (Option K × Nat) :=
  m.filter (fun p => decide (p.1 ≠ key))

/-- Map assignment `mp[key] = e`. -/
def mpSet (m : List (Option K × Nat)) (key : Option K) (e : Nat) : List (Option K × Nat) :=
  mpDelete m key ++ [(key, e)]

/-- Assignment through an element pointer: the store with the container of `e` replaced. -/
def setAt (s : Nat → container K V) (e : Nat) (c : container K V) : Nat → container K V :=
  fun j => if j = e then c else s j

/-- The `(*list.List).MoveToBack` method. -/
def MoveToBack (l : List Nat) (e : Nat) : List Nat :=
  if e ∈ l then l.erase e ++ [e] else l

/-- The `(*time.Timer).Stop` call guarded by `c.timer != nil`. -/
def stopTimer (t : Option Timer) : Option Timer :=
  t.map (fun x => { x with active := false })

/-- The `mergeSetOption` function. -/
def mergeSetOption (option : List SetOption) : SetOption :=
  option.foldl (fun ret o => if o.KeepLiveDuration.isSome then
    { ret with KeepLiveDuration := o.KeepLiveDuration } else ret) { KeepLiveDuration := none }

/-- The `mergeKeepLiveOption` function. -/
def mergeKeepLiveOption (option : List KeepLiveOption) : KeepLiveOption :=
  option.foldl (fun ret o => if o.Duration.isSome then
    { ret with Duration := o.Duration } else ret) { Duration := none }

/-- The `container.GetSeq` method. -/
def container.GetSeq (c : container K V) : Nat := c.seq

/-- The `container.isTimeout` method: `!liveTime.IsZero() && !liveTime.After(now)`. -/
def container.isTimeout (c : container K V) (now : Int) : Bool :=
  match c.liveTime with
  | none => false
  | some t => !decide (now < t)

/-- The `container.IsTimeout` method. -/
def container.IsTimeout (c : container K V) (now : Int) : Bool := c.isTimeout now

/-- The `container.Update` method: the exchanger calls it makes and its result. The container
is not changed. -/
def container.Update (c : container K V) (v : Option V) (seq : Nat) : List (Event K V) × Bool :=
  if c.seq ≠ seq then ([], false)
  else if c.closed then ([], false)
  else ([{ key := c.key, new := v, eld := c.data, release := false }], true)

/-- The `container.GetData` method. -/
def container.GetData (c : container K V) (now : Int) (seq : Nat) : Option V × Bool :=
  let data := c.data
  if c.seq ≠ seq then (none, false)
  else if c.isTimeout now then (none, false)
  else if c.closed then (none, false)
  else (data, true)

/-- The `container.KeepLive` method; `now` is its reading of `time.Now()`. -/
def container.KeepLive (c : container K V) (duration : Int) (seq : Nat) (now : Int) :
    container K V × Bool :=
  if c.seq ≠ seq then (c, false)
  else if c.closed then (c, false)
  else
    let seq := c.seq
    if duration ≠ 0 then
      ({ c with liveTime := some (now + duration),
                timer := some { fireAt := now + duration, seq := seq, active := true } }, false)
    else
      ({ c with liveTime := none, timer := stopTimer c.timer }, false)

/-- The `container.release` method: the container afterwards, the exchanger calls and the
result. -/
def container.release (c : container K V) (seq : Nat) :
    container K V × List (Event K V) × Bool :=
  if c.seq ≠ seq then (c, [], false)
  else if c.closed then (c, [], false)
  else
    let key := c.key
    let value := c.data
    ({ c with timer := stopTimer c.timer, closed := true },
      [{ key := key, new := none, eld := value, release := true }], true)

/-- The `container.Release` method. -/
def container.Release (c : container K V) (seq : Nat) :
    container K V × List (Event K V) × Bool := c.release seq

/-- The call `ctnPool.Get()`: the pooled container at position `pick` when there is one, a new
container otherwise; with the pool that remains. -/
def poolGet (pool : List (container K V)) (pick : Nat) : container K V × List (container K V) :=
  match pool.get? pick with
  | some c => (c, pool.eraseIdx pick)
  | none => (zeroContainer, pool)

/-- The `Table.moveToEnd` method. -/
def Table.moveToEnd (tb : Table K V) (e : Nat) : Table K V :=
  { tb with ll := MoveToBack tb.ll e }

/-- The `Table.releaseContainer` method, on the container of element `e`. -/
def Table.releaseContainer (tb : Table K V) (e : Nat) (seq : Nat) : Table K V × Bool :=
  let r := (tb.store e).Release seq
  if r.2.2 then
    ({ tb with store := setAt tb.store e r.1, calls := tb.calls ++ r.2.1,
               pool := r.1 :: tb.pool }, true)
  else (tb, false)

/-- The `Table.newContainer` method: the table afterwards and the container it returns. -/
def Table.newContainer (tb : Table K V) (pick : Nat) (key : Option K) (value : Option V) :
    Table K V × container K V :=
  let g := poolGet tb.pool pick
  let seq := (tb.seq + 1) % 2 ^ 64
  let ctn : container K V :=
    { g.1 with seq := seq, data := value, key := key, closed := false,
               timer := stopTimer g.1.timer }
  ({ tb with seq := seq, pool := g.2 }, ctn)

/-- One pass through the body of the eviction loop of `Table.add`. -/
def Table.evictBody (tb : Table K V) : Table K V :=
  match tb.ll.head? with
  | none => tb
  | some releaseItem =>
    let releaseCtn := tb.store releaseItem
    let releaseKey := releaseCtn.key
    let releaseSeq := releaseCtn.GetSeq
    let tb1 := (tb.releaseContainer releaseItem releaseSeq).1
    { tb1 with mp := mpDelete tb1.mp releaseKey, ll := tb1.ll.erase releaseItem }

/-- The eviction loop `for tb.ll.Len() > tb.maxEntry { ... }` of `Table.add`. -/
def Table.evictLoop : Nat → Table K V → Option (Table K V)
  | 0, _ => none
  | fuel + 1, tb =>
    if tb.maxEntry < (tb.ll.length : Int) then Table.evictLoop fuel tb.evictBody else some tb

/-- The first three statements of `Table.add`: `newContainer`, `PushBack` and the map
assignment. The new element takes the next fresh identity. -/
def Table.addInsert (tb : Table K V) (pick : Nat) (key : Option K) (data : Option V) :
    Table K V :=
  let n := tb.newContainer pick key data
  let tb1 := n.1
  let e := tb1.fresh
  { tb1 with ll := tb1.ll ++ [e], store := setAt tb1.store e n.2, fresh := e + 1,
             mp := mpSet tb1.mp key e }

/-- The `Table.add` method: the table afterwards and the element of the new container. -/
def Table.add (fuel pick : Nat) (now : Int) (tb : Table K V) (key : Option K) (data : Option V)
    (keepLive : Int) : Option (Table K V × Nat) :=
  let e := tb.fresh
  let tb2 := tb.addInsert pick key data
  let evicted := if tb2.maxEntry ≠ 0 then Table.evictLoop fuel tb2 else some tb2
  match evicted with
  | none => none
  | some tb3 =>
    if 0 < keepLive then
      let c := tb3.store e
      some ({ tb3 with store := setAt tb3.store e (c.KeepLive keepLive c.GetSeq now).1 }, e)
    else some (tb3, e)

/-- The `Table.load` method: the table afterwards, the element of the container and `loaded`. -/
def Table.load (fuel pick : Nat) (now : Int) (tb : Table K V) (key : Option K) (data : Option V)
    (keepLive : Int) : Option (Table K V × Nat × Bool) :=
  match mpGet tb.mp key with
  | none => (Table.add fuel pick now tb key data keepLive).map (fun r => (r.1, r.2, false))
  | some e =>
    let ctn := tb.store e
    let tb1 : Table K V :=
      { tb with store := setAt tb.store e (ctn.KeepLive keepLive ctn.GetSeq now).1 }
    some (tb1.moveToEnd e, e, true)

/-- The `Table.Clear` method. -/
def Table.Clear (tb : Table K V) : Table K V :=
  let tb1 := tb.ll.foldl (fun (t : Table K V) f =>
    let ctn := t.store f
    let r := ctn.release ctn.GetSeq
    { t with store := setAt t.store f r.1, calls := t.calls ++ r.2.1 }) tb
  { tb1 with mp := [], ll := [] }

/-- The `NewTable` constructor, in a process whose container pool is `pool`: the struct literal
(its list and map still `nil`) and the call of `Clear`. -/
def NewTable (maxEntry : Int) (keepLiveDuration : Int) (pool : List (container K V)) :
    Table K V :=
  Table.Clear
    { keepLiveDuration := keepLiveDuration, maxEntry := maxEntry, ll := [], mp := [], seq := 0,
      store := fun _ => zeroContainer, fresh := 0, pool := pool, calls := [] }

/-- The `Table.Keys` method at instant `now`. -/
def Table.Keys (tb : Table K V) (now : Int) : List (Option K) :=
  (tb.mp.filter (fun p => !(tb.store p.2).IsTimeout now)).map (fun p => p.1)

/-- The `Table.Get` method at instant `now`. -/
def Table.Get (tb : Table K V) (now : Int) (key : Option K) : Table K V × Option V × Bool :=
  match mpGet tb.mp key with
  | none => (tb, none, false)
  | some e =>
    let ctn := tb.store e
    let seq := ctn.seq
    let tb1 := tb.moveToEnd e
    (tb1, (tb1.store e).GetData now seq)

/-- The duration `Table.Set` arms the deadline with: `*o.KeepLiveDuration` of the merged
options when it is not `nil`, `tb.keepLiveDuration` otherwise. -/
def Table.setDuration (tb : Table K V) (option : List SetOption) : Int :=
  let o := mergeSetOption option
  match o.KeepLiveDuration with
  | some d => d
  | none => tb.keepLiveDuration

/-- The duration `Table.KeepLive` arms the deadline with: `*o.Duration` of the merged options
when it is not `nil`, `tb.keepLiveDuration` otherwise. -/
def Table.keepLiveOf (tb : Table K V) (option : List KeepLiveOption) : Int :=
  let o := mergeKeepLiveOption option
  match o.Duration with
  | some d => d
  | none => tb.keepLiveDuration

/-- The retry loop of `Table.Fetch`; `now` is the instant read on entry and `clk i` the instant
the `i`-th pass reads inside `load`. -/
def Table.FetchLoop (pick : Nat) (now : Int) (key : Option K) (d : Option V) :
    Nat → (Nat → Int) → Table K V → Option (Table K V × Option V × Bool)
  | 0, _, _ => none
  | fuel + 1, clk, tb =>
    match Table.load (fuel + 1) pick (clk 0) tb key d tb.keepLiveDuration with
    | none => none
    | some (tb1, e, loaded) =>
      let seq := (tb1.store e).GetSeq
      if loaded then
        let r := (tb1.store e).GetData now seq
        if r.2 then some (tb1, r.1, true)
        else Table.FetchLoop pick now key d fuel (fun i => clk (i + 1)) tb1
      else some (tb1, d, false)

/-- The `Table.Fetch` method. -/
def Table.Fetch (fuel pick : Nat) (now : Int) (clk : Nat → Int) (tb : Table K V)
    (key : Option K) (d : Option V) : Option (Table K V × Option V × Bool) :=
  Table.FetchLoop pick now key d fuel clk tb

/-- The `Table.Set` method; `now` is the instant read while the deadline is armed. -/
def Table.Set (fuel pick : Nat) (now : Int) (tb : Table K V) (key : Option K) (value : Option V)
    (option : List SetOption) : Option (Table K V) :=
  let keepLiveDuration := tb.setDuration option
  match Table.load fuel pick now tb key value keepLiveDuration with
  | none => none
  | some (tb1, e, loaded) =>
    let seq := (tb1.store e).GetSeq
    if !loaded then
      some { tb1 with calls := tb1.calls ++ ((tb1.store e).Update value seq).1 }
    else some tb1

/-- The `Table.KeepLive` method. -/
def Table.KeepLive (tb : Table K V) (now : Int) (key : Option K)
    (option : List KeepLiveOption) : Table K V × Bool :=
  let duration := tb.keepLiveOf option
  match mpGet tb.mp key with
  | none => (tb, false)
  | some e =>
    let ctn := tb.store e
    let seq := ctn.GetSeq
    let tb1 := tb.moveToEnd e
    ({ tb1 with store := setAt tb1.store e ((tb1.store e).KeepLive duration seq now).1 }, false)

/-- The `Table.Delete` method. -/
def Table.Delete (tb : Table K V) (key : Option K) : Table K V × Bool :=
  match mpGet tb.mp key with
  | none => (tb, false)
  | some e =>
    let ctn := tb.store e
    let tb1 : Table K V := { tb with mp := mpDelete tb.mp key, ll := tb.ll.erase e }
    let seq := ctn.GetSeq
    tb1.releaseContainer e seq

/-- The `Table.deleteBySeq` method, the delete a timer callback asks for. -/
def Table.deleteBySeq (tb : Table K V) (key : Option K) (seq : Nat) : Table K V × Bool :=
  match mpGet tb.mp key with
  | none => (tb, false)
  | some e =>
    let ctn := tb.store e
    if ctn.seq ≠ seq then (tb, false)
    else
      let tb1 : Table K V := { tb with mp := mpDelete tb.mp key, ll := tb.ll.erase e }
      tb1.releaseContainer e seq

/-- An operation on the table: a call of a public method, or the delete a timer callback
asks for. -/
inductive Op (K V : Type) where
  | Get (now : Int) (key : Option K)
  | Fetch (pick : Nat) (now : Int) (clk : Nat → Int) (key : Option K) (d : Option V)
  | Set (pick : Nat) (now : Int) (key : Option K) (value : Option V) (option : List SetOption)
  | KeepLive (now : Int) (key : Option K) (option : List KeepLiveOption)
  | Delete (key : Option K)
  | Keys (now : Int)
  | Clear
  | deleteBySeq (key : Option K) (seq : Nat)

/-- The table after one operation; `none` when the operation does not return within `fuel`. -/
def Table.step (fuel : Nat) (tb : Table K V) : Op K V → Option (Table K V)
  | .Get now key => some (tb.Get now key).1
  | .Fetch pick now clk key d => (Table.Fetch fuel pick now clk tb key d).map (fun r => r.1)
  | .Set pick now key value option => Table.Set fuel pick now tb key value option
  | .KeepLive now key option => some (tb.KeepLive now key option).1
  | .Delete key => some (tb.Delete key).1
  | .Keys _ => some tb
  | .Clear => some tb.Clear
  | .deleteBySeq key seq => some (tb.deleteBySeq key seq).1

/-- The table after a sequence of operations, run one after another. -/
def Table.run (fuel : Nat) : Table K V → List (Op K V) → Option (Table K V)
  | tb, [] => some tb
  | tb, op :: ops =>
    match tb.step fuel op with
    | none => none
    | some tb1 => Table.run fuel tb1 ops

/-- Whether an operation accesses key `k`: `Get`, `Fetch`, `Set` and `KeepLive` on `k`. -/
def Op.touches (k : Option K) : Op K V → Bool
  | .Get _ key => decide (key = k)
  | .Fetch _ _ _ key _ => decide (key = k)
  | .Set _ _ key _ _ => decide (key = k)
  | .KeepLive _ key _ => decide (key = k)
  | _ => false

/-- The position (counted from 1) of the last operation of `ops` that accesses `k`; 0 when
there is none. -/
def lastAccess (ops : List (Op K V)) (k : Option K) : Nat :=
  (ops.foldl (fun (acc : Nat × Nat) op =>
    (acc.1 + 1, if op.touches k then acc.1 + 1 else acc.2)) (0, 0)).2

/-- The exchanger calls that report a release. -/
def releases (calls : List (Event K V)) : List (Event K V) :=
  calls.filter (fun ev => ev.release)

/-- Well-formedness of the two indexes: the recency list has no repeated element, the key index
has no repeated key, every key index entry points to an element of the list that holds a
container with that key, and every element of the list is indexed under its container's key,
holds a container that is not closed, and was allocated by the table. -/
def Table.Inv (tb : Table K V) : Prop :=
  tb.ll.Nodup ∧ (tb.mp.map Prod.fst).Nodup ∧
  (∀ p ∈ tb.mp, p.2 ∈ tb.ll ∧ (tb.store p.2).key = p.1) ∧
  (∀ e ∈ tb.ll, ((tb.store e).key, e) ∈ tb.mp ∧ (tb.store e).closed = false ∧ e < tb.fresh)

instance (tb : Table K V) : Decidable tb.Inv := by
  unfold Table.Inv
  infer_instance

/-- The size bound: a positive `maxEntry` caps the length of the recency list. -/
def Table.Bounded (tb : Table K V) : Prop :=
  0 < tb.maxEntry → (tb.ll.length : Int) ≤ tb.maxEntry

/-- An unbounded table without default TTL, in a process whose pool is empty. -/
def exEmpty : Table Nat Nat := NewTable 0 0 []

/-- The table `exEmpty` after `Set(1, 10)`. -/
def exOne : Table Nat Nat := (Table.Set 1 0 0 exEmpty (some 1) (some 10) []).getD exEmpty

/-- The table `exEmpty` after `Set(1, 10)` with a `KeepLiveDuration` of 10 at instant 0 and
`Delete(1)`: the table is empty again, and the pool holds the released container, whose
`liveTime` is still the instant 10. -/
def exStale : Table Nat Nat :=
  (exEmpty.run 1 [.Set 0 0 (some 1) (some 10) [{ KeepLiveDuration := some 10 }],
    .Delete (some 1)]).getD exEmpty

/-- The scenario S1 on a table with `maxEntry = 3` and no TTL: insert 1, 2, 3 and `Get(1)`. -/
def exThreeOps : List (Op Nat Nat) :=
  [.Set 0 0 (some 1) (some 1) [], .Set 0 0 (some 2) (some 2) [],
   .Set 0 0 (some 3) (some 3) [], .Get 0 (some 1)]

/-- The recency list is ordered by the rank `L` of the keys its containers carry, front to
back. -/
def Table.SortedBy (L : Option K → Nat) (tb : Table K V) : Prop :=
  tb.ll.Pairwise (fun a b => L (tb.store a).key < L (tb.store b).key)

/-- The table with `maxEntry = 3` and no TTL after the scenario `exThreeOps`: it holds the keys
1, 2 and 3, and key 1 is the most recently accessed. -/
def exThree : Table Nat Nat :=
  ((NewTable 3 0 []).run 2 exThreeOps).getD exEmpty

/-- A container that has been released: closed, with the past deadline 10. -/
def exClosed : container Nat Nat :=
  { key := some 1, liveTime := some 10, timer := none, data := some 10, closed := true,
    seq := 1 }

/-- The generation counter and the generations handed out agree with the number of
insertions: `tb.seq` is the number of elements allocated so far, reduced modulo `2 ^ 64`, and
the container of the `e`-th element allocated (counting from 0) carries the generation
`e + 1`, reduced modulo `2 ^ 64`. -/
def Table.SeqInv (tb : Table K V) : Prop :=
  tb.seq = tb.fresh % 2 ^ 64 ∧ ∀ e, e < tb.fresh → (tb.store e).seq = (e + 1) % 2 ^ 64

/-- The counter, the number of elements allocated and the generation of every container are
the same in `tb'` as in `tb`. -/
def Table.SeqFrame (tb tb' : Table K V) : Prop :=
  tb'.seq = tb.seq ∧ tb'.fresh = tb.fresh ∧ ∀ j, (tb'.store j).seq = (tb.store j).seq

/-- A table built with the negative `maxEntry` of -1, without default TTL. -/
def exNeg : Table Nat Nat := NewTable (-1) 0 []

/-- What a method does to the table lock `tb.rw` and to the two indexes, in program order:
taking and dropping the write lock (`Lock`, `Unlock`) or the read lock (`RLock`, `RUnlock`),
mutating the recency list (`PushBack`, `Remove`, `MoveToBack`), mutating the key index
(`MapAssign`, `MapDelete`), or replacing both indexes (`Reset`, the two assignments that end
`Clear`). -/
inductive LockEv where
  | Lock
  | Unlock
  | RLock
  | RUnlock
  | PushBack
  | Remove
  | MoveToBack
  | MapAssign
  | MapDelete
  | Reset
deriving DecidableEq, Repr

/-- Whether every mutation in a sequence of events happens while the caller holds the write
lock; `w` tells whether it holds it at the start. The read lock does not count. -/
def guardedFrom : Bool → List LockEv → Bool
  | _, [] => true
  | _, .Lock :: r => guardedFrom true r
  | _, .Unlock :: r => guardedFrom false r
  | w, .RLock :: r => guardedFrom w r
  | w, .RUnlock :: r => guardedFrom w r
  | w, _ :: r => w && guardedFrom w r

/-- Whether every mutation of a call happens under the write lock. -/
def guarded (evs : List LockEv) : Bool := guardedFrom false evs

/-- The events of `Table.add`: `PushBack`, the map assignment, and `delete` and `Remove` for
each pass of the eviction loop that finds an element. -/
def Table.addEvents (tb : Table K V) : List LockEv :=
  [.PushBack, .MapAssign] ++
    (List.replicate
      (if tb.maxEntry = 0 then 0
        else min (tb.ll.length + 1) ((tb.ll.length : Int) + 1 - tb.maxEntry).toNat)
      [LockEv.MapDelete, LockEv.Remove]).flatten

/-- The events of `Table.load`: those of `add` on a miss, `moveToEnd` on a hit. -/
def Table.loadEvents (tb : Table K V) (key : Option K) : List LockEv :=
  match mpGet tb.mp key with
  | none => tb.addEvents
  | some _ => [.MoveToBack]

/-- The events of `Table.Get`. -/
def Table.GetEvents (tb : Table K V) (key : Option K) : List LockEv :=
  [.Lock] ++
    (match mpGet tb.mp key with
     | none => [.Unlock]
     | some _ => [.MoveToBack, .Unlock])

/-- The events of one pass of the loop of `Table.Fetch`. -/
def Table.FetchEvents (tb : Table K V) (key : Option K) : List LockEv :=
  [.Lock] ++ tb.loadEvents key ++ [.Unlock]

/-- The events of `Table.Set`. -/
def Table.SetEvents (tb : Table K V) (key : Option K) : List LockEv :=
  [.Lock] ++ tb.loadEvents key ++ [.Unlock]

/-- The events of `Table.KeepLive`. -/
def Table.KeepLiveEvents (tb : Table K V) (key : Option K) : List LockEv :=
  [.RLock] ++
    (match mpGet tb.mp key with
     | none => [.RUnlock]
     | some _ => [.MoveToBack, .RUnlock])

/-- The events of `Table.Delete`. -/
def Table.DeleteEvents (tb : Table K V) (key : Option K) : List LockEv :=
  [.Lock] ++
    (match mpGet tb.mp key with
     | none => [.Unlock]
     | some _ => [.MapDelete, .Remove, .Unlock])

/-- The events of `Table.deleteBySeq`. -/
def Table.deleteBySeqEvents (tb : Table K V) (key : Option K) (seq : Nat) : List LockEv :=
  [.Lock] ++
    (match mpGet tb.mp key with
     | none => [.Unlock]
     | some e =>
       if (tb.store e).seq ≠ seq then [.Unlock] else [.MapDelete, .Remove, .Unlock])

/-- The events of `Table.Clear`. -/
def ClearEvents : List LockEv := [.Lock, .Reset, .Unlock]

/-- The events of `Table.Keys`. -/
def KeysEvents : List LockEv := [.RLock, .RUnlock]

end Defs

end Memo

namespace Memo

section Lemmas

variable {K V : Type} [DecidableEq K]

theorem mpGet_eq_none {m : List (Option K × Nat)} {k : Option K} :
    mpGet m k = none ↔ ∀ p ∈ m, p.1 ≠ k := by
  induction m with
  | nil => simp [mpGet]
  | cons a m ih =>
    obtain ⟨a1, a2⟩ := a
    by_cases h : a1 = k
    · simp [mpGet, h]
    · simp [mpGet, h, ih]

theorem mem_of_mpGet {m : List (Option K × Nat)} {k : Option K} {e : Nat}
    (h : mpGet m k = some e) : (k, e) ∈ m := by
  induction m with
  | nil => simp [mpGet] at h
  | cons a m ih =>
    obtain ⟨a1, a2⟩ := a
    by_cases hk : a1 = k
    · simp [mpGet, hk] at h
      simp [hk, h]
    · simp [mpGet, hk] at h
      exact List.mem_cons_of_mem _ (ih h)

theorem mpGet_of_mem {m : List (Option K × Nat)} {k : Option K} {e : Nat}
    (hn : (m.map Prod.fst).Nodup) (h : (k, e) ∈ m) : mpGet m k = some e := by
  induction m with
  | nil => simp at h
  | cons a m ih =>
    obtain ⟨a1, a2⟩ := a
    simp only [List.map_cons, List.nodup_cons] at hn
    rcases List.mem_cons.1 h with h1 | h1
    · cases h1
      simp [mpGet]
    · have hne : a1 ≠ k := by
        intro hEq
        apply hn.1
        rw [hEq]
        exact List.mem_map.2 ⟨(k, e), h1, rfl⟩
      simp [mpGet, hne, ih hn.2 h1]

theorem mem_mpDelete {m : List (Option K × Nat)} {k : Option K} {p : Option K × Nat} :
    p ∈ mpDelete m k ↔ p ∈ m ∧ p.1 ≠ k := by
  simp [mpDelete, List.mem_filter]

theorem nodup_keys_mpDelete {m : List (Option K × Nat)} (k : Option K)
    (hn : (m.map Prod.fst).Nodup) : ((mpDelete m k).map Prod.fst).Nodup :=
  hn.sublist (List.Sublist.map _ (List.filter_sublist _))

theorem mpDelete_of_absent {m : List (Option K × Nat)} {k : Option K}
    (h : mpGet m k = none) : mpDelete m k = m := by
  rw [mpGet_eq_none] at h
  apply List.filter_eq_self.2
  intro p hp
  simpa using h p hp

theorem mpGet_mpDelete_self (m : List (Option K × Nat)) (k : Option K) :
    mpGet (mpDelete m k) k = none := by
  rw [mpGet_eq_none]
  intro p hp
  exact (mem_mpDelete.1 hp).2

theorem mpDelete_cons (a1 : Option K) (a2 : Nat) (m : List (Option K × Nat)) (k : Option K) :
    mpDelete ((a1, a2) :: m) k = if a1 = k then mpDelete m k else (a1, a2) :: mpDelete m k := by
  by_cases h : a1 = k <;> simp [mpDelete, List.filter_cons, h]

theorem mpGet_mpDelete_ne {m : List (Option K × Nat)} {k k' : Option K} (h : k' ≠ k) :
    mpGet (mpDelete m k) k' = mpGet m k' := by
  induction m with
  | nil => simp [mpDelete, mpGet]
  | cons a m ih =>
    obtain ⟨a1, a2⟩ := a
    rw [mpDelete_cons]
    by_cases h1 : a1 = k
    · have h2 : a1 ≠ k' := fun h3 => h (h3 ▸ h1)
      have h4 : ¬ k = k' := fun h3 => h h3.symm
      simp [mpGet, h1, ih, h4]
    · simp [mpGet, h1, ih]

theorem mpGet_append (m m' : List (Option K × Nat)) (k : Option K) :
    mpGet (m ++ m') k = (mpGet m k).orElse (fun _ => mpGet m' k) := by
  induction m with
  | nil => simp [mpGet]
  | cons a m ih =>
    obtain ⟨a1, a2⟩ := a
    by_cases h : a1 = k
    · simp [mpGet, h]
    · simp [mpGet, h, ih]

theorem mpGet_mpSet_self (m : List (Option K × Nat)) (k : Option K) (e : Nat) :
    mpGet (mpSet m k e) k = some e := by
  simp [mpSet, mpGet_append, mpGet_mpDelete_self, mpGet]

theorem mpGet_mpSet_ne {m : List (Option K × Nat)} {k k' : Option K} (e : Nat) (h : k' ≠ k) :
    mpGet (mpSet m k e) k' = mpGet m k' := by
  have h2 : ¬ k = k' := fun h3 => h h3.symm
  simp [mpSet, mpGet_append, mpGet_mpDelete_ne h, mpGet, h2]

theorem nodup_MoveToBack {l : List Nat} (e : Nat) (h : l.Nodup) : (MoveToBack l e).Nodup := by
  unfold MoveToBack
  split
  · rw [List.nodup_append]
    refine ⟨h.erase e, List.nodup_singleton e, ?_⟩
    intro a ha hb
    rw [List.mem_singleton] at hb
    subst hb
    exact (List.Nodup.not_mem_erase h) ha
  · exact h

theorem mem_MoveToBack {l : List Nat} {e a : Nat} :
    a ∈ MoveToBack l e ↔ a ∈ l := by
  unfold MoveToBack
  split
  · rename_i he
    rw [List.mem_append, List.mem_singleton]
    constructor
    · rintro (h1 | h1)
      · exact List.mem_of_mem_erase h1
      · exact h1 ▸ he
    · intro ha
      by_cases hae : a = e
      · exact Or.inr hae
      · exact Or.inl ((List.mem_erase_of_ne hae).2 ha)
  · exact Iff.rfl

theorem length_MoveToBack (l : List Nat) (e : Nat) : (MoveToBack l e).length = l.length := by
  unfold MoveToBack
  split
  · rename_i he
    rw [List.length_append, List.length_erase_of_mem he, List.length_singleton]
    have : 0 < l.length := List.length_pos_of_mem he
    omega
  · rfl

theorem KeepLive_key (c : container K V) (d : Int) (s : Nat) (now : Int) :
    (c.KeepLive d s now).1.key = c.key := by
  unfold container.KeepLive
  split_ifs <;> rfl

theorem KeepLive_closed (c : container K V) (d : Int) (s : Nat) (now : Int) :
    (c.KeepLive d s now).1.closed = c.closed := by
  unfold container.KeepLive
  split_ifs <;> rfl

theorem KeepLive_data (c : container K V) (d : Int) (s : Nat) (now : Int) :
    (c.KeepLive d s now).1.data = c.data := by
  unfold container.KeepLive
  split_ifs <;> rfl

theorem KeepLive_seq (c : container K V) (d : Int) (s : Nat) (now : Int) :
    (c.KeepLive d s now).1.seq = c.seq := by
  unfold container.KeepLive
  split_ifs <;> rfl

theorem setAt_same (s : Nat → container K V) (e : Nat) (c : container K V) :
    setAt s e c e = c := by
  simp [setAt]

theorem setAt_other (s : Nat → container K V) {e j : Nat} (c : container K V) (h : j ≠ e) :
    setAt s e c j = s j := by
  simp [setAt, h]

/-- Well-formedness survives a change that keeps the members of the list, the key index, and
the key and closed flag of every listed container. -/
theorem Inv.of_frame {tb tb' : Table K V} (h : tb.Inv) (hn : tb'.ll.Nodup)
    (hm : ∀ e, e ∈ tb'.ll ↔ e ∈ tb.ll) (hmp : tb'.mp = tb.mp)
    (hs : ∀ e ∈ tb.ll, (tb'.store e).key = (tb.store e).key ∧
      (tb'.store e).closed = (tb.store e).closed)
    (hf : tb.fresh ≤ tb'.fresh) : tb'.Inv := by
  obtain ⟨_, h2, h3, h4⟩ := h
  refine ⟨hn, hmp ▸ h2, ?_, ?_⟩
  · intro p hp
    rw [hmp] at hp
    obtain ⟨a, b⟩ := h3 p hp
    exact ⟨(hm _).2 a, (hs _ a).1.trans b⟩
  · intro e he
    have he' := (hm e).1 he
    obtain ⟨a, b, c⟩ := h4 e he'
    refine ⟨?_, (hs e he').2.trans b, lt_of_lt_of_le c hf⟩
    rw [hmp, (hs e he').1]
    exact a

/-- Well-formedness survives the removal of a listed element together with its key. -/
theorem Inv.of_remove {tb tb' : Table K V} (h : tb.Inv) {e : Nat} (he : e ∈ tb.ll)
    (hll : tb'.ll = tb.ll.erase e) (hmp : tb'.mp = mpDelete tb.mp (tb.store e).key)
    (hs : ∀ j, j ≠ e → tb'.store j = tb.store j) (hf : tb'.fresh = tb.fresh) : tb'.Inv := by
  obtain ⟨h1, h2, h3, h4⟩ := h
  refine ⟨hll ▸ h1.erase e, hmp ▸ nodup_keys_mpDelete _ h2, ?_, ?_⟩
  · intro p hp
    rw [hmp, mem_mpDelete] at hp
    obtain ⟨a, b⟩ := h3 p hp.1
    have hne : p.2 ≠ e := by
      intro hpe
      apply hp.2
      rw [← b, hpe]
    rw [hll, hs _ hne]
    exact ⟨(List.mem_erase_of_ne hne).2 a, b⟩
  · intro j hj
    rw [hll] at hj
    have hje : j ≠ e := fun hEq => (List.Nodup.not_mem_erase h1) (hEq ▸ hj)
    have hj' := List.mem_of_mem_erase hj
    obtain ⟨a, b, c⟩ := h4 j hj'
    rw [hs j hje, hmp, hf, mem_mpDelete]
    refine ⟨⟨a, ?_⟩, b, c⟩
    intro hk
    have h5 := mpGet_of_mem h2 a
    have h6 := mpGet_of_mem h2 (h4 e he).1
    simp only at hk
    rw [hk, h6] at h5
    exact hje (Option.some.inj h5).symm

/-- Well-formedness survives the insertion of a fresh element under an absent key. -/
theorem Inv.of_insert {tb tb' : Table K V} (h : tb.Inv) {k : Option K}
    (hk : mpGet tb.mp k = none) (hll : tb'.ll = tb.ll ++ [tb.fresh])
    (hmp : tb'.mp = mpSet tb.mp k tb.fresh)
    (hs : ∀ j, j ≠ tb.fresh → tb'.store j = tb.store j)
    (hnew : (tb'.store tb.fresh).key = k ∧ (tb'.store tb.fresh).closed = false)
    (hf : tb'.fresh = tb.fresh + 1) : tb'.Inv := by
  obtain ⟨h1, h2, h3, h4⟩ := h
  have hfr : tb.fresh ∉ tb.ll := fun hin => lt_irrefl _ (h4 _ hin).2.2
  have hmp' : tb'.mp = tb.mp ++ [(k, tb.fresh)] := by
    rw [hmp, mpSet, mpDelete_of_absent hk]
  refine ⟨?_, ?_, ?_, ?_⟩
  · rw [hll, List.nodup_append]
    refine ⟨h1, List.nodup_singleton _, ?_⟩
    intro a ha hb
    rw [List.mem_singleton] at hb
    exact hfr (hb ▸ ha)
  · rw [hmp', List.map_append, List.nodup_append]
    refine ⟨h2, by simp, ?_⟩
    intro a ha hb
    simp only [List.map_cons, List.map_nil, List.mem_singleton] at hb
    subst hb
    obtain ⟨p, hp, hpa⟩ := List.mem_map.1 ha
    exact (mpGet_eq_none.1 hk) p hp hpa
  · intro p hp
    rw [hmp', List.mem_append, List.mem_singleton] at hp
    rcases hp with hp | hp
    · obtain ⟨a, b⟩ := h3 p hp
      have hne : p.2 ≠ tb.fresh := fun hEq => hfr (hEq ▸ a)
      rw [hll, hs _ hne]
      exact ⟨List.mem_append_left _ a, b⟩
    · subst hp
      rw [hll]
      exact ⟨by simp, hnew.1⟩
  · intro j hj
    rw [hll, List.mem_append, List.mem_singleton] at hj
    rcases hj with hj | hj
    · have hne : j ≠ tb.fresh := fun hEq => hfr (hEq ▸ hj)
      obtain ⟨a, b, c⟩ := h4 j hj
      rw [hs j hne, hmp', hf]
      exact ⟨List.mem_append_left _ a, b, Nat.lt_succ_of_lt c⟩
    · subst hj
      rw [hnew.1, hnew.2, hmp', hf]
      exact ⟨by simp, rfl, Nat.lt_succ_self _⟩

/-- In a well-formed table the key index and the recency list have the same length. -/
theorem Inv.length_mp {tb : Table K V} (h : tb.Inv) : tb.mp.length = tb.ll.length := by
  obtain ⟨h1, h2, h3, h4⟩ := h
  have hnd : (tb.mp.map Prod.snd).Nodup := by
    rw [List.nodup_map_iff_inj_on (List.Nodup.of_map _ h2)]
    intro p hp q hq hpq
    have e1 := (h3 p hp).2
    have e2 := (h3 q hq).2
    rw [hpq] at e1
    exact Prod.ext (e1.symm.trans e2) hpq
  have hperm : (tb.mp.map Prod.snd).Perm tb.ll := by
    rw [List.perm_ext_iff_of_nodup hnd h1]
    intro a
    constructor
    · intro ha
      obtain ⟨p, hp, hpa⟩ := List.mem_map.1 ha
      exact hpa ▸ (h3 p hp).1
    · intro ha
      exact List.mem_map.2 ⟨_, (h4 a ha).1, rfl⟩
  simpa using hperm.length_eq

theorem moveToEnd_inv {tb : Table K V} (e : Nat) (h : tb.Inv) : (tb.moveToEnd e).Inv :=
  Inv.of_frame h (nodup_MoveToBack e h.1) (fun _ => mem_MoveToBack) rfl
    (fun _ _ => ⟨rfl, rfl⟩) (le_refl _)

theorem Get_inv {tb : Table K V} (now : Int) (key : Option K) (h : tb.Inv) :
    (tb.Get now key).1.Inv := by
  unfold Table.Get
  split
  · exact h
  · exact moveToEnd_inv _ h

theorem Get_bounded {tb : Table K V} (now : Int) (key : Option K) :
    (tb.Get now key).1.maxEntry = tb.maxEntry ∧ (tb.Bounded → (tb.Get now key).1.Bounded) := by
  unfold Table.Get
  split
  · exact ⟨rfl, id⟩
  · refine ⟨rfl, fun hb hp => ?_⟩
    have := hb hp
    simpa [Table.moveToEnd, length_MoveToBack] using this

theorem touch_inv {tb : Table K V} (e : Nat) (c : container K V) (h : tb.Inv)
    (hk : c.key = (tb.store e).key) (hc : c.closed = (tb.store e).closed) :
    Table.Inv { tb with store := setAt tb.store e c } := by
  refine Inv.of_frame h h.1 (fun _ => Iff.rfl) rfl ?_ (le_refl _)
  intro j _
  by_cases hj : j = e
  · subst hj
    simp [setAt_same, hk, hc]
  · simp [setAt_other _ _ hj]

theorem KeepLive_inv {tb : Table K V} (now : Int) (key : Option K)
    (option : List KeepLiveOption) (h : tb.Inv) : (tb.KeepLive now key option).1.Inv := by
  unfold Table.KeepLive
  split
  · exact h
  · exact touch_inv _ _ (moveToEnd_inv _ h) (KeepLive_key _ _ _ _) (KeepLive_closed _ _ _ _)

theorem KeepLive_bounded {tb : Table K V} (now : Int) (key : Option K)
    (option : List KeepLiveOption) :
    (tb.KeepLive now key option).1.maxEntry = tb.maxEntry ∧
      (tb.Bounded → (tb.KeepLive now key option).1.Bounded) := by
  unfold Table.KeepLive
  split
  · exact ⟨rfl, id⟩
  · refine ⟨rfl, fun hb hp => ?_⟩
    have := hb hp
    simpa [Table.moveToEnd, length_MoveToBack] using this

theorem releaseContainer_frame (tb : Table K V) (e s : Nat) :
    (tb.releaseContainer e s).1.ll = tb.ll ∧ (tb.releaseContainer e s).1.mp = tb.mp ∧
    (tb.releaseContainer e s).1.fresh = tb.fresh ∧
    (tb.releaseContainer e s).1.maxEntry = tb.maxEntry ∧
    (tb.releaseContainer e s).1.keepLiveDuration = tb.keepLiveDuration ∧
    (tb.releaseContainer e s).1.seq = tb.seq ∧
    ∀ j, j ≠ e → (tb.releaseContainer e s).1.store j = tb.store j := by
  unfold Table.releaseContainer
  simp only []
  by_cases h : ((tb.store e).Release s).2.2 = true
  · rw [if_pos h]
    exact ⟨rfl, rfl, rfl, rfl, rfl, rfl, fun j hj => setAt_other _ _ hj⟩
  · rw [if_neg h]
    exact ⟨rfl, rfl, rfl, rfl, rfl, rfl, fun _ _ => rfl⟩

theorem remove_inv {tb : Table K V} {e : Nat} {key : Option K} (s : Nat) (h : tb.Inv)
    (he : e ∈ tb.ll) (hk : (tb.store e).key = key) :
    (Table.releaseContainer
      { tb with mp := mpDelete tb.mp key, ll := tb.ll.erase e } e s).1.Inv := by
  obtain ⟨h1, h2, h3, _, _, _, h7⟩ := releaseContainer_frame
    ({ tb with mp := mpDelete tb.mp key, ll := tb.ll.erase e } : Table K V) e s
  exact Inv.of_remove h he h1 (by rw [h2, hk]) h7 h3

theorem Delete_inv {tb : Table K V} (key : Option K) (h : tb.Inv) : (tb.Delete key).1.Inv := by
  unfold Table.Delete
  split
  · exact h
  · rename_i e he
    have hm := h.2.2.1 _ (mem_of_mpGet he)
    exact remove_inv _ h hm.1 hm.2

theorem deleteBySeq_inv {tb : Table K V} (key : Option K) (seq : Nat) (h : tb.Inv) :
    (tb.deleteBySeq key seq).1.Inv := by
  unfold Table.deleteBySeq
  split
  · exact h
  · rename_i e he
    have hm := h.2.2.1 _ (mem_of_mpGet he)
    simp only
    split
    · exact h
    · exact remove_inv _ h hm.1 hm.2

theorem length_erase_le (l : List Nat) (e : Nat) : (l.erase e).length ≤ l.length := by
  rw [List.length_erase]
  split <;> omega

theorem remove_bounded (tb : Table K V) (key : Option K) (e s : Nat) :
    (Table.releaseContainer
      { tb with mp := mpDelete tb.mp key, ll := tb.ll.erase e } e s).1.maxEntry = tb.maxEntry ∧
    (tb.Bounded → (Table.releaseContainer
      { tb with mp := mpDelete tb.mp key, ll := tb.ll.erase e } e s).1.Bounded) := by
  obtain ⟨h1, _, _, h4, _⟩ := releaseContainer_frame
    ({ tb with mp := mpDelete tb.mp key, ll := tb.ll.erase e } : Table K V) e s
  refine ⟨h4, fun hb hp => ?_⟩
  rw [h4] at hp ⊢
  rw [h1]
  have h5 := hb hp
  have h6 := length_erase_le tb.ll e
  simp only
  omega

theorem Delete_bounded (tb : Table K V) (key : Option K) :
    (tb.Delete key).1.maxEntry = tb.maxEntry ∧ (tb.Bounded → (tb.Delete key).1.Bounded) := by
  unfold Table.Delete
  split
  · exact ⟨rfl, id⟩
  · exact remove_bounded tb key _ _

theorem deleteBySeq_bounded (tb : Table K V) (key : Option K) (seq : Nat) :
    (tb.deleteBySeq key seq).1.maxEntry = tb.maxEntry ∧
      (tb.Bounded → (tb.deleteBySeq key seq).1.Bounded) := by
  unfold Table.deleteBySeq
  split
  · exact ⟨rfl, id⟩
  · simp only
    split
    · exact ⟨rfl, id⟩
    · exact remove_bounded tb key _ _

theorem Clear_fields (tb : Table K V) :
    tb.Clear.ll = [] ∧ tb.Clear.mp = [] ∧ tb.Clear.maxEntry = tb.maxEntry := by
  unfold Table.Clear
  refine ⟨rfl, rfl, ?_⟩
  simp only
  generalize tb.ll = l
  induction l generalizing tb with
  | nil => rfl
  | cons a l ih => rw [List.foldl_cons, ih]

theorem Clear_inv (tb : Table K V) : tb.Clear.Inv := by
  obtain ⟨h1, h2, _⟩ := Clear_fields tb
  unfold Table.Inv
  rw [h1, h2]
  simp

theorem Clear_bounded (tb : Table K V) :
    tb.Clear.maxEntry = tb.maxEntry ∧ tb.Clear.Bounded := by
  obtain ⟨h1, _, h3⟩ := Clear_fields tb
  refine ⟨h3, fun hp => ?_⟩
  rw [h1]
  simpa using le_of_lt hp

theorem evictBody_inv {tb : Table K V} (h : tb.Inv) : tb.evictBody.Inv := by
  unfold Table.evictBody
  split
  · exact h
  · rename_i e he
    have hmem : e ∈ tb.ll := List.mem_of_mem_head? he
    obtain ⟨h1, h2, h3, _, _, _, h7⟩ :=
      releaseContainer_frame tb e (tb.store e).GetSeq
    exact Inv.of_remove h hmem (by simp only [h1]) (by simp only [h2]) h7 h3

theorem evictBody_frame (tb : Table K V) :
    tb.evictBody.maxEntry = tb.maxEntry ∧ tb.evictBody.fresh = tb.fresh ∧
    tb.evictBody.ll = tb.ll.tail ∧
    ∀ j, (∀ a, tb.ll.head? = some a → j ≠ a) → tb.evictBody.store j = tb.store j := by
  unfold Table.evictBody
  split
  · rename_i he
    rw [List.head?_eq_none_iff] at he
    exact ⟨rfl, rfl, by rw [he]; rfl, fun _ _ => rfl⟩
  · rename_i e he
    obtain ⟨h1, _, h3, h4, _, _, h7⟩ :=
      releaseContainer_frame tb e (tb.store e).GetSeq
    refine ⟨h4, h3, ?_, fun j hj => h7 j (hj e he)⟩
    simp only [h1]
    cases hl : tb.ll with
    | nil => simp [hl] at he
    | cons a l =>
      simp only [hl, List.head?_cons, Option.some.injEq] at he
      simp [he]

theorem evictLoop_inv {fuel : Nat} {tb tb' : Table K V}
    (h : Table.evictLoop fuel tb = some tb') (hi : tb.Inv) : tb'.Inv := by
  induction fuel generalizing tb with
  | zero => simp [Table.evictLoop] at h
  | succ n ih =>
    unfold Table.evictLoop at h
    split at h
    · exact ih h (evictBody_inv hi)
    · cases h
      exact hi

theorem evictLoop_bounded {fuel : Nat} {tb tb' : Table K V}
    (h : Table.evictLoop fuel tb = some tb') :
    tb'.maxEntry = tb.maxEntry ∧ tb'.fresh = tb.fresh ∧
      (tb'.ll.length : Int) ≤ tb'.maxEntry := by
  induction fuel generalizing tb with
  | zero => simp [Table.evictLoop] at h
  | succ n ih =>
    unfold Table.evictLoop at h
    split at h
    · obtain ⟨a, b, c⟩ := ih h
      exact ⟨a.trans (evictBody_frame tb).1, b.trans (evictBody_frame tb).2.1, c⟩
    · rename_i hlt
      cases h
      exact ⟨rfl, rfl, not_lt.1 hlt⟩

/-- With `maxEntry >= 0` the eviction loop exits after `length - maxEntry` passes (none when
the list is not longer than `maxEntry`). -/
theorem evictLoop_eq (fuel : Nat) (tb : Table K V) (h0 : 0 ≤ tb.maxEntry)
    (hf : ((tb.ll.length : Int) - tb.maxEntry).toNat < fuel) :
    Table.evictLoop fuel tb =
      some (Table.evictBody^[((tb.ll.length : Int) - tb.maxEntry).toNat] tb) := by
  induction fuel generalizing tb with
  | zero => omega
  | succ n ih =>
    unfold Table.evictLoop
    split
    · rename_i hlt
      obtain ⟨e1, _, e3, _⟩ := evictBody_frame tb
      have hlen : (tb.evictBody.ll.length : Int) = (tb.ll.length : Int) - 1 := by
        rw [e3, List.length_tail]
        have : 0 < tb.ll.length := by omega
        omega
      have hj : ((tb.ll.length : Int) - tb.maxEntry).toNat =
          ((tb.evictBody.ll.length : Int) - tb.evictBody.maxEntry).toNat + 1 := by
        rw [hlen, e1]
        omega
      rw [hj, Function.iterate_succ_apply]
      apply ih
      · rw [e1]; exact h0
      · omega
    · rename_i hlt
      have hj : ((tb.ll.length : Int) - tb.maxEntry).toNat = 0 := by omega
      rw [hj]
      rfl

theorem addInsert_frame (tb : Table K V) (pick : Nat) (key : Option K) (data : Option V) :
    (tb.addInsert pick key data).ll = tb.ll ++ [tb.fresh] ∧
    (tb.addInsert pick key data).mp = mpSet tb.mp key tb.fresh ∧
    (tb.addInsert pick key data).fresh = tb.fresh + 1 ∧
    (tb.addInsert pick key data).maxEntry = tb.maxEntry ∧
    (tb.addInsert pick key data).keepLiveDuration = tb.keepLiveDuration ∧
    (tb.addInsert pick key data).calls = tb.calls ∧
    (tb.addInsert pick key data).store tb.fresh = (tb.newContainer pick key data).2 ∧
    ∀ j, j ≠ tb.fresh → (tb.addInsert pick key data).store j = tb.store j :=
  ⟨rfl, rfl, rfl, rfl, rfl, rfl, setAt_same _ _ _, fun _ hj => setAt_other _ _ hj⟩

theorem newContainer_fields (tb : Table K V) (pick : Nat) (key : Option K) (data : Option V) :
    (tb.newContainer pick key data).2.key = key ∧
    (tb.newContainer pick key data).2.data = data ∧
    (tb.newContainer pick key data).2.closed = false ∧
    (tb.newContainer pick key data).2.seq = (tb.seq + 1) % 2 ^ 64 ∧
    (tb.newContainer pick key data).2.liveTime = (poolGet tb.pool pick).1.liveTime :=
  ⟨rfl, rfl, rfl, rfl, rfl⟩

theorem addInsert_inv {tb : Table K V} (pick : Nat) {key : Option K} (data : Option V)
    (h : tb.Inv) (hk : mpGet tb.mp key = none) : (tb.addInsert pick key data).Inv := by
  obtain ⟨h1, h2, h3, _, _, _, h7, h8⟩ := addInsert_frame tb pick key data
  refine Inv.of_insert h hk h1 h2 h8 ?_ h3
  rw [h7]
  exact ⟨rfl, rfl⟩

/-- What `add` returns, in terms of the table the eviction loop leaves. -/
theorem add_some {fuel pick : Nat} {now : Int} {tb : Table K V} {key : Option K}
    {data : Option V} {keepLive : Int} {r : Table K V × Nat}
    (h : Table.add fuel pick now tb key data keepLive = some r) :
    ∃ tb3, (if (tb.addInsert pick key data).maxEntry ≠ 0
        then Table.evictLoop fuel (tb.addInsert pick key data)
        else some (tb.addInsert pick key data)) = some tb3 ∧
      r.2 = tb.fresh ∧
      r.1 = (if 0 < keepLive then
        { tb3 with store := (setAt tb3.store tb.fresh
            ((tb3.store tb.fresh).KeepLive keepLive (tb3.store tb.fresh).GetSeq now).1) }
        else tb3) := by
  unfold Table.add at h
  simp only [] at h
  split at h
  · cases h
  · rename_i tb3 he
    refine ⟨tb3, he, ?_⟩
    split at h <;> cases h <;> simp [*]

theorem add_inv {fuel pick : Nat} {now : Int} {tb : Table K V} {key : Option K}
    {data : Option V} {keepLive : Int} {r : Table K V × Nat}
    (h : Table.add fuel pick now tb key data keepLive = some r) (hi : tb.Inv)
    (hk : mpGet tb.mp key = none) : r.1.Inv := by
  obtain ⟨tb3, h3, _, hr⟩ := add_some h
  have hi3 : tb3.Inv := by
    split at h3
    · exact evictLoop_inv h3 (addInsert_inv pick data hi hk)
    · cases h3
      exact addInsert_inv pick data hi hk
  rw [hr]
  split
  · exact touch_inv _ _ hi3 (KeepLive_key _ _ _ _) (KeepLive_closed _ _ _ _)
  · exact hi3

theorem add_bounded {fuel pick : Nat} {now : Int} {tb : Table K V} {key : Option K}
    {data : Option V} {keepLive : Int} {r : Table K V × Nat}
    (h : Table.add fuel pick now tb key data keepLive = some r) :
    r.1.maxEntry = tb.maxEntry ∧ r.1.Bounded := by
  obtain ⟨tb3, h3, _, hr⟩ := add_some h
  have hb : tb3.maxEntry = tb.maxEntry ∧ tb3.Bounded := by
    split at h3
    · obtain ⟨a, _, c⟩ := evictLoop_bounded h3
      exact ⟨a, fun _ => c⟩
    · rename_i h0
      cases h3
      simp only [ne_eq, not_not] at h0
      refine ⟨rfl, fun hp => ?_⟩
      rw [h0] at hp
      exact absurd hp (lt_irrefl _)
  rw [hr]
  split
  · exact hb
  · exact hb

theorem load_inv {fuel pick : Nat} {now : Int} {tb : Table K V} {key : Option K}
    {data : Option V} {keepLive : Int} {r : Table K V × Nat × Bool}
    (h : Table.load fuel pick now tb key data keepLive = some r) (hi : tb.Inv) : r.1.Inv := by
  unfold Table.load at h
  split at h
  · rename_i hk
    rw [Option.map_eq_some'] at h
    obtain ⟨a, ha, rfl⟩ := h
    exact add_inv ha hi hk
  · cases h
    exact moveToEnd_inv _ (touch_inv _ _ hi (KeepLive_key _ _ _ _) (KeepLive_closed _ _ _ _))

theorem load_bounded {fuel pick : Nat} {now : Int} {tb : Table K V} {key : Option K}
    {data : Option V} {keepLive : Int} {r : Table K V × Nat × Bool}
    (h : Table.load fuel pick now tb key data keepLive = some r) :
    r.1.maxEntry = tb.maxEntry ∧ (tb.Bounded → r.1.Bounded) := by
  unfold Table.load at h
  split at h
  · rw [Option.map_eq_some'] at h
    obtain ⟨a, ha, rfl⟩ := h
    exact ⟨(add_bounded ha).1, fun _ => (add_bounded ha).2⟩
  · cases h
    refine ⟨rfl, fun hb hp => ?_⟩
    have := hb hp
    simpa [Table.moveToEnd, length_MoveToBack] using this

theorem Set_inv {fuel pick : Nat} {now : Int} {tb tb' : Table K V} {key : Option K}
    {value : Option V} {option : List SetOption}
    (h : Table.Set fuel pick now tb key value option = some tb') (hi : tb.Inv) : tb'.Inv := by
  unfold Table.Set at h
  simp only [] at h
  split at h
  · cases h
  · rename_i tb1 e loaded hl
    have h1 : tb1.Inv := load_inv hl hi
    split at h <;> cases h <;> exact h1

theorem Set_bounded {fuel pick : Nat} {now : Int} {tb tb' : Table K V} {key : Option K}
    {value : Option V} {option : List SetOption}
    (h : Table.Set fuel pick now tb key value option = some tb') :
    tb'.maxEntry = tb.maxEntry ∧ (tb.Bounded → tb'.Bounded) := by
  unfold Table.Set at h
  simp only [] at h
  split at h
  · cases h
  · rename_i tb1 e loaded hl
    have h1 := load_bounded hl
    split at h <;> cases h <;> exact h1

theorem FetchLoop_inv {pick : Nat} {now : Int} {key : Option K} {d : Option V} {fuel : Nat}
    {clk : Nat → Int} {tb : Table K V} {r : Table K V × Option V × Bool}
    (h : Table.FetchLoop pick now key d fuel clk tb = some r) (hi : tb.Inv) : r.1.Inv := by
  induction fuel generalizing clk tb with
  | zero => simp [Table.FetchLoop] at h
  | succ n ih =>
    unfold Table.FetchLoop at h
    split at h
    · cases h
    · rename_i tb1 e loaded hl
      have h1 : tb1.Inv := load_inv hl hi
      simp only [] at h
      split at h
      · split at h
        · cases h
          exact h1
        · exact ih h h1
      · cases h
        exact h1

theorem FetchLoop_bounded {pick : Nat} {now : Int} {key : Option K} {d : Option V}
    {fuel : Nat} {clk : Nat → Int} {tb : Table K V} {r : Table K V × Option V × Bool}
    (h : Table.FetchLoop pick now key d fuel clk tb = some r) :
    r.1.maxEntry = tb.maxEntry ∧ (tb.Bounded → r.1.Bounded) := by
  induction fuel generalizing clk tb with
  | zero => simp [Table.FetchLoop] at h
  | succ n ih =>
    unfold Table.FetchLoop at h
    split at h
    · cases h
    · rename_i tb1 e loaded hl
      have h1 := load_bounded hl
      simp only [] at h
      split at h
      · split at h
        · cases h
          exact h1
        · obtain ⟨a, b⟩ := ih h
          exact ⟨a.trans h1.1, fun hb => b (h1.2 hb)⟩
      · cases h
        exact h1

theorem step_inv {fuel : Nat} {tb tb' : Table K V} {op : Op K V}
    (h : tb.step fuel op = some tb') (hi : tb.Inv) : tb'.Inv := by
  cases op with
  | Get now key => cases h; exact Get_inv now key hi
  | Fetch pick now clk key d =>
    simp only [Table.step, Table.Fetch, Option.map_eq_some'] at h
    obtain ⟨r, hr, rfl⟩ := h
    exact FetchLoop_inv hr hi
  | Set pick now key value option => exact Set_inv h hi
  | KeepLive now key option => cases h; exact KeepLive_inv now key option hi
  | Delete key => cases h; exact Delete_inv key hi
  | Keys now => cases h; exact hi
  | Clear => cases h; exact Clear_inv tb
  | deleteBySeq key seq => cases h; exact deleteBySeq_inv key seq hi

theorem step_bounded {fuel : Nat} {tb tb' : Table K V} {op : Op K V}
    (h : tb.step fuel op = some tb') :
    tb'.maxEntry = tb.maxEntry ∧ (tb.Bounded → tb'.Bounded) := by
  cases op with
  | Get now key => cases h; exact Get_bounded now key
  | Fetch pick now clk key d =>
    simp only [Table.step, Table.Fetch, Option.map_eq_some'] at h
    obtain ⟨r, hr, rfl⟩ := h
    exact FetchLoop_bounded hr
  | Set pick now key value option => exact Set_bounded h
  | KeepLive now key option => cases h; exact KeepLive_bounded now key option
  | Delete key => cases h; exact Delete_bounded tb key
  | Keys now => cases h; exact ⟨rfl, id⟩
  | Clear => cases h; exact ⟨(Clear_bounded tb).1, fun _ => (Clear_bounded tb).2⟩
  | deleteBySeq key seq => cases h; exact deleteBySeq_bounded tb key seq

theorem run_inv {fuel : Nat} {ops : List (Op K V)} {tb tb' : Table K V}
    (h : tb.run fuel ops = some tb') (hi : tb.Inv) : tb'.Inv := by
  induction ops generalizing tb with
  | nil => cases h; exact hi
  | cons op ops ih =>
    unfold Table.run at h
    split at h
    · cases h
    · rename_i tb1 h1
      exact ih h (step_inv h1 hi)

theorem run_bounded {fuel : Nat} {ops : List (Op K V)} {tb tb' : Table K V}
    (h : tb.run fuel ops = some tb') :
    tb'.maxEntry = tb.maxEntry ∧ (tb.Bounded → tb'.Bounded) := by
  induction ops generalizing tb with
  | nil => cases h; exact ⟨rfl, id⟩
  | cons op ops ih =>
    unfold Table.run at h
    split at h
    · cases h
    · rename_i tb1 h1
      obtain ⟨a, b⟩ := ih h
      obtain ⟨c, d⟩ := step_bounded h1
      exact ⟨a.trans c, fun hb => b (d hb)⟩

theorem NewTable_inv (maxEntry keepLiveDuration : Int) (pool : List (container K V)) :
    (NewTable maxEntry keepLiveDuration pool).Inv :=
  Clear_inv _

theorem NewTable_bounded (maxEntry keepLiveDuration : Int) (pool : List (container K V)) :
    (NewTable maxEntry keepLiveDuration pool).maxEntry = maxEntry ∧
      (NewTable maxEntry keepLiveDuration pool).Bounded :=
  Clear_bounded _

theorem release_events (c : container K V) (s : Nat) :
    ∀ ev ∈ (c.release s).2.1, ev.release = true := by
  unfold container.release
  split_ifs <;> simp

theorem releaseContainer_calls (tb : Table K V) (e s : Nat) :
    ∃ rel, (tb.releaseContainer e s).1.calls = tb.calls ++ rel ∧
      ∀ ev ∈ rel, ev.release = true := by
  unfold Table.releaseContainer
  simp only []
  by_cases h : ((tb.store e).Release s).2.2 = true
  · rw [if_pos h]
    exact ⟨_, rfl, release_events _ _⟩
  · rw [if_neg h]
    exact ⟨[], by simp, by simp⟩

theorem evictBody_calls (tb : Table K V) :
    tb.evictBody.keepLiveDuration = tb.keepLiveDuration ∧
    ∃ rel, tb.evictBody.calls = tb.calls ++ rel ∧ ∀ ev ∈ rel, ev.release = true := by
  unfold Table.evictBody
  split
  · exact ⟨rfl, [], by simp, by simp⟩
  · rename_i e he
    obtain ⟨_, _, _, _, h5, _⟩ := releaseContainer_frame tb e (tb.store e).GetSeq
    exact ⟨h5, releaseContainer_calls tb e _⟩

/-- The table after `j` passes of the eviction loop body: the first `j` elements are gone from
the list, the containers of the other elements are untouched, and the exchanger has only been
told of releases. -/
theorem evictIter_frame (j : Nat) (tb : Table K V) :
    (Table.evictBody^[j] tb).ll = tb.ll.drop j ∧
    (Table.evictBody^[j] tb).maxEntry = tb.maxEntry ∧
    (Table.evictBody^[j] tb).fresh = tb.fresh ∧
    (Table.evictBody^[j] tb).keepLiveDuration = tb.keepLiveDuration ∧
    (∀ x, x ∉ tb.ll.take j → (Table.evictBody^[j] tb).store x = tb.store x) ∧
    ∃ rel, (Table.evictBody^[j] tb).calls = tb.calls ++ rel ∧
      ∀ ev ∈ rel, ev.release = true := by
  induction j generalizing tb with
  | zero => exact ⟨rfl, rfl, rfl, rfl, fun _ _ => rfl, [], by simp, by simp⟩
  | succ n ih =>
    rw [Function.iterate_succ_apply]
    obtain ⟨a1, a2, a3, a4, a5, rel1, a6, a7⟩ := ih tb.evictBody
    obtain ⟨b1, b2, b3, b4⟩ := evictBody_frame tb
    obtain ⟨c1, rel0, c2, c3⟩ := evictBody_calls tb
    refine ⟨?_, a2.trans b1, a3.trans b2, a4.trans c1, ?_, rel0 ++ rel1, ?_, ?_⟩
    · rw [a1, b3, List.drop_tail]
    · intro x hx
      cases hl : tb.ll with
      | nil =>
        rw [a5 x (by rw [b3, hl]; simp)]
        exact b4 x (by rw [hl]; simp)
      | cons y l =>
        rw [hl] at hx
        simp only [List.take_succ_cons, List.mem_cons, not_or] at hx
        rw [a5 x (by rw [b3, hl]; exact hx.2)]
        exact b4 x (by rw [hl]; simpa using hx.1)
    · rw [a6, c2, List.append_assoc]
    · intro ev hev
      rcases List.mem_append.1 hev with h | h
      · exact c3 ev h
      · exact a7 ev h

theorem evictBody_mp (tb : Table K V) {e : Nat} (he : tb.ll.head? = some e) :
    tb.evictBody.mp = mpDelete tb.mp (tb.store e).key := by
  unfold Table.evictBody
  rw [he]
  simp only []
  rw [(releaseContainer_frame tb e (tb.store e).GetSeq).2.1]

/-- A key that none of the first `j` listed containers carries is looked up after `j` passes of
the eviction loop body as before. -/
theorem evictIter_mp (j : Nat) (tb : Table K V) (hn : tb.ll.Nodup) (k : Option K)
    (hk : ∀ x ∈ tb.ll.take j, (tb.store x).key ≠ k) :
    mpGet (Table.evictBody^[j] tb).mp k = mpGet tb.mp k := by
  induction j generalizing tb with
  | zero => rfl
  | succ n ih =>
    rw [Function.iterate_succ_apply]
    obtain ⟨_, _, b3, b4⟩ := evictBody_frame tb
    cases hl : tb.ll with
    | nil =>
      have hb : tb.evictBody = tb := by
        unfold Table.evictBody
        rw [hl]
        rfl
      rw [hb]
      exact ih tb hn (by rw [hl]; simp)
    | cons y l =>
      rw [hl] at hk hn
      have hy : tb.ll.head? = some y := by rw [hl]; rfl
      have hnd := List.nodup_cons.1 hn
      rw [ih tb.evictBody (by rw [b3, hl]; exact hnd.2)]
      · rw [evictBody_mp tb hy]
        apply mpGet_mpDelete_ne
        exact fun hEq => hk y (by simp) hEq.symm
      · intro x hx
        rw [b3, hl] at hx
        have hxl : x ∈ l := List.mem_of_mem_take hx
        have hxy : x ≠ y := fun hEq => hnd.1 (hEq ▸ hxl)
        rw [b4 x (by rw [hl]; intro a ha; cases ha; exact hxy)]
        exact hk x (by simp [List.take_succ_cons]; exact Or.inr hx)

/-- What `add` does for an absent key in a well-formed table with `maxEntry >= 0`: it returns,
the new element is indexed under the key and holds the new container, and the exchanger is told
of releases only. -/
theorem add_absent {tb : Table K V} (hi : tb.Inv) (h0 : 0 ≤ tb.maxEntry) {fuel : Nat}
    (hf : tb.ll.length < fuel) (pick : Nat) (now : Int) {key : Option K} (data : Option V)
    (keepLive : Int) (hk : mpGet tb.mp key = none) :
    ∃ tb', Table.add fuel pick now tb key data keepLive = some (tb', tb.fresh) ∧
      mpGet tb'.mp key = some tb.fresh ∧
      (tb'.store tb.fresh).key = key ∧ (tb'.store tb.fresh).data = data ∧
      (tb'.store tb.fresh).closed = false ∧
      (tb'.store tb.fresh).seq = (tb.seq + 1) % 2 ^ 64 ∧
      (tb'.store tb.fresh).liveTime =
        (if 0 < keepLive then some (now + keepLive)
          else (poolGet tb.pool pick).1.liveTime) ∧
      (∃ rel, tb'.calls = tb.calls ++ rel ∧ ∀ ev ∈ rel, ev.release = true) ∧
      tb'.keepLiveDuration = tb.keepLiveDuration ∧ tb'.maxEntry = tb.maxEntry := by
  obtain ⟨f1, f2, f3, f4, f5, f6, f7, f8⟩ := addInsert_frame tb pick key data
  obtain ⟨n1, n2, n3, n4, n5⟩ := newContainer_fields tb pick key data
  have hfr : tb.fresh ∉ tb.ll := fun hin => lt_irrefl _ (hi.2.2.2 _ hin).2.2
  have hi2 := addInsert_inv pick data hi hk
  -- the table the loop leaves
  have key3 : ∃ tb3, (if (tb.addInsert pick key data).maxEntry ≠ 0
        then Table.evictLoop fuel (tb.addInsert pick key data)
        else some (tb.addInsert pick key data)) = some tb3 ∧
      mpGet tb3.mp key = some tb.fresh ∧
      tb3.store tb.fresh = (tb.newContainer pick key data).2 ∧
      (∃ rel, tb3.calls = tb.calls ++ rel ∧ ∀ ev ∈ rel, ev.release = true) ∧
      tb3.keepLiveDuration = tb.keepLiveDuration ∧ tb3.maxEntry = tb.maxEntry := by
    by_cases hz : (tb.addInsert pick key data).maxEntry ≠ 0
    · rw [if_pos hz]
      rw [f4] at hz
      have hpos : 1 ≤ tb.maxEntry := by omega
      have hlen : ((tb.addInsert pick key data).ll.length : Int) = tb.ll.length + 1 := by
        rw [f1]; simp
      have hj : (((tb.addInsert pick key data).ll.length : Int) -
          (tb.addInsert pick key data).maxEntry).toNat ≤ tb.ll.length := by
        rw [hlen, f4]; omega
      rw [evictLoop_eq fuel _ (by rw [f4]; exact h0) (by omega)]
      generalize (((tb.addInsert pick key data).ll.length : Int) -
          (tb.addInsert pick key data).maxEntry).toNat = j at hj
      obtain ⟨a1, a2, a3, a4, a5, rel, a6, a7⟩ :=
        evictIter_frame j (tb.addInsert pick key data)
      have htake : (tb.addInsert pick key data).ll.take j = tb.ll.take j := by
        rw [f1, List.take_append_of_le_length hj]
      refine ⟨_, rfl, ?_, ?_, ⟨rel, by rw [a6, f6], a7⟩, a4.trans f5, a2.trans f4⟩
      · rw [evictIter_mp j _ hi2.1 key, f2, mpGet_mpSet_self]
        intro x hx
        rw [htake] at hx
        have hxl : x ∈ tb.ll := List.mem_of_mem_take hx
        have hxf : x ≠ tb.fresh := fun hEq => hfr (hEq ▸ hxl)
        rw [f8 x hxf]
        intro hEq
        have := (mpGet_eq_none.1 hk) _ (hi.2.2.2 x hxl).1
        exact this hEq
      · rw [a5 _ (by rw [htake]; exact fun hin => hfr (List.mem_of_mem_take hin)), f7]
    · rw [if_neg hz]
      refine ⟨_, rfl, ?_, f7, ⟨[], by rw [f6]; simp, by simp⟩, f5, f4⟩
      rw [f2, mpGet_mpSet_self]
  obtain ⟨tb3, e3, m3, s3, c3, k3, x3⟩ := key3
  unfold Table.add
  simp only []
  rw [e3]
  simp only []
  by_cases hpos : 0 < keepLive
  · rw [if_pos hpos, if_pos hpos]
    refine ⟨_, rfl, m3, ?_, ?_, ?_, ?_, ?_, c3, k3, x3⟩
    · simp only [setAt_same, KeepLive_key, s3, n1]
    · simp only [setAt_same, KeepLive_data, s3, n2]
    · simp only [setAt_same, KeepLive_closed, s3, n3]
    · simp only [setAt_same, KeepLive_seq, s3, n4]
    · have hne : keepLive ≠ 0 := ne_of_gt hpos
      simp only [setAt_same, s3]
      simp [container.KeepLive, container.GetSeq, n3, hne]
  · rw [if_neg hpos, if_neg hpos]
    exact ⟨_, rfl, m3, by rw [s3, n1], by rw [s3, n2], by rw [s3, n3], by rw [s3, n4],
      by rw [s3, n5], c3, k3, x3⟩

theorem load_present {tb : Table K V} {key : Option K} {e : Nat}
    (hk : mpGet tb.mp key = some e) (fuel pick : Nat) (now : Int) (data : Option V)
    (keepLive : Int) :
    Table.load fuel pick now tb key data keepLive =
      some (Table.moveToEnd { tb with store := (setAt tb.store e
        ((tb.store e).KeepLive keepLive (tb.store e).GetSeq now).1) } e, e, true) := by
  unfold Table.load
  rw [hk]

theorem Set_present {tb : Table K V} {key : Option K} {e : Nat}
    (hk : mpGet tb.mp key = some e) (fuel pick : Nat) (now : Int) (v : Option V)
    (option : List SetOption) :
    Table.Set fuel pick now tb key v option =
      some (Table.moveToEnd { tb with store := (setAt tb.store e
        ((tb.store e).KeepLive (tb.setDuration option) (tb.store e).GetSeq now).1) } e) := by
  unfold Table.Set
  simp only []
  rw [load_present hk]
  rfl

theorem GetData_live {c : container K V} {now : Int} (hc : c.closed = false)
    (ht : ∀ t, c.liveTime = some t → now < t) : c.GetData now c.seq = (c.data, true) := by
  unfold container.GetData container.isTimeout
  cases hl : c.liveTime with
  | none => simp [hc]
  | some t => simp [hc, ht t hl]

theorem Get_present {tb : Table K V} {key : Option K} {e : Nat}
    (hk : mpGet tb.mp key = some e) (now : Int) :
    tb.Get now key = (tb.moveToEnd e, (tb.store e).GetData now (tb.store e).seq) := by
  unfold Table.Get
  rw [hk]
  rfl

theorem load_absent {tb : Table K V} {key : Option K} (hk : mpGet tb.mp key = none)
    (fuel pick : Nat) (now : Int) (data : Option V) (keepLive : Int) :
    Table.load fuel pick now tb key data keepLive =
      (Table.add fuel pick now tb key data keepLive).map (fun r => (r.1, r.2, false)) := by
  unfold Table.load
  rw [hk]

theorem releaseContainer_open (tb : Table K V) (e : Nat) (hc : (tb.store e).closed = false) :
    tb.releaseContainer e (tb.store e).GetSeq =
      ({ tb with
          store := (setAt tb.store e
            { tb.store e with timer := stopTimer (tb.store e).timer, closed := true }),
          calls := tb.calls ++
            [{ key := (tb.store e).key, new := none, eld := (tb.store e).data, release := true }],
          pool := { tb.store e with timer := stopTimer (tb.store e).timer, closed := true } ::
            tb.pool }, true) := by
  simp [Table.releaseContainer, container.Release, container.release, container.GetSeq, hc]

theorem Get_absent {tb : Table K V} {key : Option K} (hk : mpGet tb.mp key = none)
    (now : Int) : tb.Get now key = (tb, none, false) := by
  unfold Table.Get
  rw [hk]

theorem Delete_absent {tb : Table K V} {key : Option K} (hk : mpGet tb.mp key = none) :
    tb.Delete key = (tb, false) := by
  unfold Table.Delete
  rw [hk]

theorem Delete_present {tb : Table K V} (hi : tb.Inv) {key : Option K} {e : Nat}
    (hk : mpGet tb.mp key = some e) :
    tb.Delete key =
      ({ tb with
          mp := mpDelete tb.mp key, ll := tb.ll.erase e,
          store := (setAt tb.store e
            { tb.store e with timer := stopTimer (tb.store e).timer, closed := true }),
          calls := tb.calls ++
            [{ key := key, new := none, eld := (tb.store e).data, release := true }],
          pool := { tb.store e with timer := stopTimer (tb.store e).timer, closed := true } ::
            tb.pool }, true) := by
  have hm := hi.2.2.1 _ (mem_of_mpGet hk)
  have hc := (hi.2.2.2 e hm.1).2.1
  unfold Table.Delete
  rw [hk]
  simp only []
  have h := releaseContainer_open
    ({ tb with mp := mpDelete tb.mp key, ll := tb.ll.erase e } : Table K V) e hc
  simp only [] at h
  rw [h, hm.2]

theorem run_append (fuel : Nat) (tb : Table K V) (a b : List (Op K V)) :
    tb.run fuel (a ++ b) = (tb.run fuel a).bind (fun t => t.run fuel b) := by
  induction a generalizing tb with
  | nil => rfl
  | cons op a ih =>
    simp only [List.cons_append, Table.run]
    cases tb.step fuel op with
    | none => rfl
    | some t => exact ih t

/-- What `Get(k)` returns after `Set(k, v)` on an absent key of a well-formed table with
`maxEntry >= 0`: `Set` returns, and a `Get(k)` at instant `t` returns `(v, true)` unless the
deadline of the new container is not after `t`, where that deadline is `now + ttl` when the
effective TTL is positive and otherwise the one the container taken from the pool carried. -/
theorem Set_absent_then_Get (tb : Table K V) (hi : tb.Inv) (h0 : 0 ≤ tb.maxEntry)
    (fuel : Nat) (hf : tb.ll.length < fuel) (pick : Nat) (now : Int) (key : Option K)
    (v : Option V) (option : List SetOption) (hk : mpGet tb.mp key = none) :
    ∃ tb', Table.Set fuel pick now tb key v option = some tb' ∧
      ∀ t, (∀ dl, (if 0 < tb.setDuration option then some (now + tb.setDuration option)
          else (poolGet tb.pool pick).1.liveTime) = some dl → t < dl) →
        (tb'.Get t key).2 = (v, true) := by
  obtain ⟨tb1, h1, m1, _, a2, a3, _, a5, _, _, _⟩ :=
    add_absent hi h0 hf pick now v (tb.setDuration option) hk
  refine ⟨{ tb1 with calls := tb1.calls ++
      ((tb1.store tb.fresh).Update v (tb1.store tb.fresh).GetSeq).1 }, ?_, ?_⟩
  · unfold Table.Set
    simp only []
    rw [load_absent hk, h1]
    rfl
  · intro t ht
    have hm : mpGet ({ tb1 with calls := tb1.calls ++
      ((tb1.store tb.fresh).Update v (tb1.store tb.fresh).GetSeq).1 } : Table K V).mp key =
        some tb.fresh := m1
    rw [Get_present hm]
    simp only []
    rw [GetData_live a3 (by rw [a5]; exact ht), a2]

/-- What `Fetch(k, d)` returns on a present key whose container is not closed, in a table with
`keepLiveDuration >= 0`: it returns `(u, true)` for the stored value `u`, leaves `u` in place, and
a `Get(k)` before the refreshed deadline returns `(u, true)`. -/
theorem Fetch_present_then_Get (tb : Table K V) (fuel pick : Nat) (now : Int)
    (clk : Nat → Int) (key : Option K) (d u : Option V) (e : Nat)
    (hk : mpGet tb.mp key = some e) (hc : (tb.store e).closed = false)
    (hu : (tb.store e).data = u) (hd : 0 ≤ tb.keepLiveDuration) (hclk : now ≤ clk 0) :
    ∃ tb', Table.Fetch (fuel + 1) pick now clk tb key d = some (tb', u, true) ∧
      (tb'.store e).data = u ∧
      ∀ t, (tb.keepLiveDuration = 0 ∨ t < clk 0 + tb.keepLiveDuration) →
        (tb'.Get t key).2 = (u, true) := by
  have hlive : ∀ t, (tb.keepLiveDuration = 0 ∨ t < clk 0 + tb.keepLiveDuration) →
      ((tb.store e).KeepLive tb.keepLiveDuration (tb.store e).GetSeq (clk 0)).1.GetData t
        ((tb.store e).KeepLive tb.keepLiveDuration (tb.store e).GetSeq (clk 0)).1.seq =
        (u, true) := by
    intro t ht
    rw [GetData_live, KeepLive_data, hu]
    · rw [KeepLive_closed, hc]
    · intro t' ht'
      simp only [container.KeepLive, container.GetSeq, hc] at ht'
      split_ifs at ht' <;> simp_all
  refine ⟨Table.moveToEnd { tb with store := (setAt tb.store e
      ((tb.store e).KeepLive tb.keepLiveDuration (tb.store e).GetSeq (clk 0)).1) } e, ?_, ?_, ?_⟩
  · have hnow := hlive now (by
      by_cases hz : tb.keepLiveDuration = 0
      · exact Or.inl hz
      · exact Or.inr (by omega))
    unfold Table.Fetch Table.FetchLoop
    rw [load_present hk]
    simp only [container.GetSeq] at hnow
    simp only [Table.moveToEnd, setAt_same, container.GetSeq, hnow]
    rfl
  · simp only [Table.moveToEnd, setAt_same, KeepLive_data, hu]
  · intro t ht
    have hk' : mpGet (Table.moveToEnd { tb with store := (setAt tb.store e
        ((tb.store e).KeepLive tb.keepLiveDuration (tb.store e).GetSeq (clk 0)).1) } e).mp key
        = some e := hk
    rw [Get_present hk']
    simp only [Table.moveToEnd, setAt_same]
    exact hlive t ht

/-- What `Get(k)` returns after `Fetch(k, d)` on an absent key of a well-formed table with
`maxEntry >= 0`: `Fetch` returns `(d, false)`, and a `Get(k)` at instant `t` returns `(d, true)`
unless the deadline of the new container is not after `t`, where that deadline is
`clk 0 + keepLiveDuration` when `keepLiveDuration` is positive and otherwise the one the
container taken from the pool carried. -/
theorem Fetch_absent_then_Get (tb : Table K V) (hi : tb.Inv) (h0 : 0 ≤ tb.maxEntry)
    (fuel : Nat) (hf : tb.ll.length < fuel) (pick : Nat) (now : Int) (clk : Nat → Int)
    (key : Option K) (d : Option V) (hk : mpGet tb.mp key = none) :
    ∃ tb', Table.Fetch fuel pick now clk tb key d = some (tb', d, false) ∧
      ∀ t, (∀ dl, (if 0 < tb.keepLiveDuration then some (clk 0 + tb.keepLiveDuration)
          else (poolGet tb.pool pick).1.liveTime) = some dl → t < dl) →
        (tb'.Get t key).2 = (d, true) := by
  obtain ⟨tb1, h1, m1, _, a2, a3, _, a5, _, _, _⟩ :=
    add_absent hi h0 hf pick (clk 0) d tb.keepLiveDuration hk
  refine ⟨tb1, ?_, ?_⟩
  · obtain ⟨m, rfl⟩ : ∃ m, fuel = m + 1 := ⟨fuel - 1, by omega⟩
    unfold Table.Fetch Table.FetchLoop
    rw [load_absent hk, h1]
    rfl
  · intro t ht
    rw [Get_present m1]
    simp only []
    rw [GetData_live a3 (by rw [a5]; exact ht), a2]

theorem lastAccess_fold_fst (k : Option K) (ops : List (Op K V)) (a b : Nat) :
    (ops.foldl (fun (acc : Nat × Nat) op =>
      (acc.1 + 1, if op.touches k then acc.1 + 1 else acc.2)) (a, b)).1 = a + ops.length := by
  induction ops generalizing a b with
  | nil => rfl
  | cons op ops ih =>
    rw [List.foldl_cons, ih, List.length_cons]
    omega

theorem lastAccess_snoc (ops : List (Op K V)) (op : Op K V) (k : Option K) :
    lastAccess (ops ++ [op]) k =
      if op.touches k then ops.length + 1 else lastAccess ops k := by
  unfold lastAccess
  rw [List.foldl_append, List.foldl_cons, List.foldl_nil]
  have h := lastAccess_fold_fst k ops 0 0
  simp only [Nat.zero_add] at h
  simp only [h]

theorem lastAccess_le (ops : List (Op K V)) (k : Option K) : lastAccess ops k ≤ ops.length := by
  induction ops using List.reverseRecOn with
  | nil => exact le_refl _
  | append_singleton l a ih =>
    rw [lastAccess_snoc, List.length_append, List.length_singleton]
    split
    · exact le_refl _
    · exact Nat.le_succ_of_le ih

/-- An operation that accesses `key` ranks `key` above every other key and leaves the rank of
every other key as it was. -/
theorem lastAccess_touch (ops : List (Op K V)) (op : Op K V) (key : Option K)
    (h : ∀ x, op.touches x = decide (key = x)) :
    (∀ x, x ≠ key → lastAccess (ops ++ [op]) x = lastAccess ops x) ∧
    (∀ x, x ≠ key → lastAccess (ops ++ [op]) x < lastAccess (ops ++ [op]) key) := by
  have h1 : ∀ x, x ≠ key → lastAccess (ops ++ [op]) x = lastAccess ops x := by
    intro x hx
    rw [lastAccess_snoc, h x]
    have : ¬ key = x := fun hEq => hx hEq.symm
    simp [this]
  refine ⟨h1, fun x hx => ?_⟩
  rw [h1 x hx, lastAccess_snoc, h key]
  simp only [decide_True, if_true]
  exact Nat.lt_succ_of_le (lastAccess_le ops x)

theorem lastAccess_skip (ops : List (Op K V)) (op : Op K V)
    (h : ∀ x, op.touches x = false) (x : Option K) :
    lastAccess (ops ++ [op]) x = lastAccess ops x := by
  rw [lastAccess_snoc, h x]
  simp

/-- The order survives when elements leave the list and the keys and ranks of the others are
kept. -/
theorem sorted_sub {L L' : Option K → Nat} {tb tb' : Table K V} (hs : tb.SortedBy L)
    (hL : ∀ x, L' x = L x) (hsub : tb'.ll.Sublist tb.ll)
    (hkeys : ∀ a ∈ tb'.ll, (tb'.store a).key = (tb.store a).key) : tb'.SortedBy L' := by
  unfold Table.SortedBy at hs ⊢
  refine List.Pairwise.imp_of_mem ?_ (List.Pairwise.sublist hsub hs)
  intro a b ha hb hab
  rw [hL, hL, hkeys a ha, hkeys b hb]
  exact hab

/-- The order survives an access to `key`: the elements that stay keep their keys, none of
which is `key`, and the element of `key`, if any, ends up last. -/
theorem sorted_core {L L' : Option K → Nat} {tb tb' : Table K V} {key : Option K}
    (hs : tb.SortedBy L) (hL : ∀ x, x ≠ key → L' x = L x)
    (hmax : ∀ x, x ≠ key → L' x < L' key) (rest tl : List Nat) (hsub : rest.Sublist tb.ll)
    (hkeys : ∀ a ∈ rest, (tb'.store a).key = (tb.store a).key ∧ (tb.store a).key ≠ key)
    (htl : ∀ e ∈ tl, (tb'.store e).key = key) (htl1 : tl.length ≤ 1)
    (hll : tb'.ll = rest ++ tl) : tb'.SortedBy L' := by
  unfold Table.SortedBy at hs ⊢
  rw [hll, List.pairwise_append]
  refine ⟨?_, ?_, ?_⟩
  · refine List.Pairwise.imp_of_mem ?_ (List.Pairwise.sublist hsub hs)
    intro a b ha hb hab
    rw [(hkeys a ha).1, (hkeys b hb).1, hL _ (hkeys a ha).2, hL _ (hkeys b hb).2]
    exact hab
  · match tl, htl1 with
    | [], _ => exact List.Pairwise.nil
    | [e], _ => exact List.pairwise_singleton _ _
    | _ :: _ :: _, h => simp at h
  · intro a ha b hb
    rw [(hkeys a ha).1, htl b hb]
    exact hmax _ (hkeys a ha).2

theorem Inv.key_ne_of_absent {tb : Table K V} (hi : tb.Inv) {key : Option K}
    (hk : mpGet tb.mp key = none) {a : Nat} (ha : a ∈ tb.ll) : (tb.store a).key ≠ key :=
  (mpGet_eq_none.1 hk) _ (hi.2.2.2 a ha).1

theorem Inv.key_ne_of_ne {tb : Table K V} (hi : tb.Inv) {key : Option K} {e : Nat}
    (hk : mpGet tb.mp key = some e) {a : Nat} (ha : a ∈ tb.ll) (hae : a ≠ e) :
    (tb.store a).key ≠ key := by
  intro hEq
  have h1 := mpGet_of_mem hi.2.1 (hi.2.2.2 a ha).1
  rw [hEq, hk] at h1
  exact hae (Option.some.inj h1).symm

/-- The order after moving the element of a present key to the back. -/
theorem sorted_touch {L L' : Option K → Nat} {tb tb' : Table K V} {key : Option K} {e : Nat}
    (hi : tb.Inv) (hs : tb.SortedBy L) (hL : ∀ x, x ≠ key → L' x = L x)
    (hmax : ∀ x, x ≠ key → L' x < L' key) (hk : mpGet tb.mp key = some e)
    (hll : tb'.ll = MoveToBack tb.ll e)
    (hkeys : ∀ a, (tb'.store a).key = (tb.store a).key) : tb'.SortedBy L' := by
  have hm := hi.2.2.1 _ (mem_of_mpGet hk)
  refine sorted_core hs hL hmax (tb.ll.erase e) [e] (List.erase_sublist e tb.ll) ?_ ?_
    (le_refl 1) ?_
  · intro a ha
    have hae : a ≠ e := fun hEq => (List.Nodup.not_mem_erase hi.1) (hEq ▸ ha)
    exact ⟨hkeys a, Inv.key_ne_of_ne hi hk (List.mem_of_mem_erase ha) hae⟩
  · intro x hx
    rw [List.mem_singleton] at hx
    rw [hx, hkeys e]
    exact hm.2
  · rw [hll, MoveToBack, if_pos hm.1]

theorem evictLoop_some {fuel : Nat} {tb tb' : Table K V}
    (h : Table.evictLoop fuel tb = some tb') :
    0 ≤ tb.maxEntry ∧
      tb' = Table.evictBody^[((tb.ll.length : Int) - tb.maxEntry).toNat] tb := by
  have h0 : 0 ≤ tb.maxEntry := by
    obtain ⟨a, _, c⟩ := evictLoop_bounded h
    rw [a] at c
    have : (0 : Int) ≤ tb'.ll.length := Int.natCast_nonneg _
    omega
  refine ⟨h0, ?_⟩
  induction fuel generalizing tb with
  | zero => simp [Table.evictLoop] at h
  | succ n ih =>
    unfold Table.evictLoop at h
    split at h
    · rename_i hlt
      obtain ⟨e1, _, e3, _⟩ := evictBody_frame tb
      have hlen : (tb.evictBody.ll.length : Int) = (tb.ll.length : Int) - 1 := by
        rw [e3, List.length_tail]
        have : 0 < tb.ll.length := by omega
        omega
      have hj : ((tb.ll.length : Int) - tb.maxEntry).toNat =
          ((tb.evictBody.ll.length : Int) - tb.evictBody.maxEntry).toNat + 1 := by
        rw [hlen, e1]
        omega
      rw [hj, Function.iterate_succ_apply]
      exact ih h (by rw [e1]; exact h0)
    · rename_i hlt
      have hj : ((tb.ll.length : Int) - tb.maxEntry).toNat = 0 := by omega
      rw [hj]
      cases h
      rfl

/-- The shape of the recency list after `add`: some elements have left its front, the new
element is at its back, and the elements that stay carry the keys they carried. -/
theorem add_shape {fuel pick : Nat} {now : Int} {tb : Table K V} {key : Option K}
    {data : Option V} {keepLive : Int} {r : Table K V × Nat}
    (h : Table.add fuel pick now tb key data keepLive = some r) (hi : tb.Inv) :
    ∃ j, j ≤ tb.ll.length ∧ r.1.ll = tb.ll.drop j ++ [tb.fresh] ∧
      (∀ x ∈ tb.ll.drop j, (r.1.store x).key = (tb.store x).key) ∧
      (r.1.store tb.fresh).key = key := by
  obtain ⟨f1, _, _, f4, _, _, f7, f8⟩ := addInsert_frame tb pick key data
  have hfr : tb.fresh ∉ tb.ll := fun hin => lt_irrefl _ (hi.2.2.2 _ hin).2.2
  obtain ⟨tb3, h3, _, hr⟩ := add_some h
  have key3 : ∃ j, j ≤ tb.ll.length ∧ tb3.ll = tb.ll.drop j ++ [tb.fresh] ∧
      (∀ x ∈ tb.ll.drop j, tb3.store x = tb.store x) ∧
      (tb3.store tb.fresh).key = key := by
    have main : ∀ j, j ≤ tb.ll.length → tb3 = Table.evictBody^[j] (tb.addInsert pick key data) →
        tb3.ll = tb.ll.drop j ++ [tb.fresh] ∧
        (∀ x ∈ tb.ll.drop j, tb3.store x = tb.store x) ∧
        (tb3.store tb.fresh).key = key := by
      intro j hj he
      obtain ⟨a1, _, _, _, a5, _⟩ := evictIter_frame j (tb.addInsert pick key data)
      have htake : (tb.addInsert pick key data).ll.take j = tb.ll.take j := by
        rw [f1, List.take_append_of_le_length hj]
      rw [he]
      refine ⟨by rw [a1, f1, List.drop_append_of_le_length hj], ?_, ?_⟩
      · intro x hx
        have hxl : x ∈ tb.ll := List.mem_of_mem_drop hx
        have hnt : x ∉ tb.ll.take j := by
          intro hin
          have hnd : (tb.ll.take j ++ tb.ll.drop j).Nodup := by
            rw [List.take_append_drop]; exact hi.1
          exact (List.nodup_append.1 hnd).2.2 hin hx
        rw [a5 x (by rw [htake]; exact hnt)]
        exact f8 x (fun hEq => hfr (hEq ▸ hxl))
      · rw [a5 _ (by rw [htake]; exact fun hin => hfr (List.mem_of_mem_take hin)), f7]
        rfl
    split at h3
    · rename_i hz
      obtain ⟨h0, he⟩ := evictLoop_some h3
      rw [f4] at hz h0
      have hlen : ((tb.addInsert pick key data).ll.length : Int) = tb.ll.length + 1 := by
        rw [f1]; simp
      have hj : (((tb.addInsert pick key data).ll.length : Int) -
          (tb.addInsert pick key data).maxEntry).toNat ≤ tb.ll.length := by
        rw [hlen, f4]; omega
      exact ⟨_, hj, main _ hj he⟩
    · cases h3
      exact ⟨0, Nat.zero_le _, main 0 (Nat.zero_le _) rfl⟩
  obtain ⟨j, hj, k1, k2, k3⟩ := key3
  refine ⟨j, hj, ?_, ?_, ?_⟩
  · rw [hr]
    split <;> exact k1
  · intro x hx
    have hxf : x ≠ tb.fresh := fun hEq => hfr (hEq ▸ List.mem_of_mem_drop hx)
    rw [hr]
    split
    · simp only [setAt_other _ _ hxf, k2 x hx]
    · rw [k2 x hx]
  · rw [hr]
    split
    · simp only [setAt_same, KeepLive_key, k3]
    · exact k3

theorem load_sorted {L L' : Option K → Nat} {fuel pick : Nat} {now : Int} {tb : Table K V}
    {key : Option K} {data : Option V} {keepLive : Int} {r : Table K V × Nat × Bool}
    (hi : tb.Inv) (hs : tb.SortedBy L) (hL : ∀ x, x ≠ key → L' x = L x)
    (hmax : ∀ x, x ≠ key → L' x < L' key)
    (h : Table.load fuel pick now tb key data keepLive = some r) : r.1.SortedBy L' := by
  cases hk : mpGet tb.mp key with
  | none =>
    rw [load_absent hk, Option.map_eq_some'] at h
    obtain ⟨a, ha, rfl⟩ := h
    obtain ⟨j, _, k1, k2, k3⟩ := add_shape ha hi
    refine sorted_core hs hL hmax (tb.ll.drop j) [tb.fresh] (List.drop_sublist j tb.ll) ?_ ?_
      (le_refl 1) k1
    · intro x hx
      exact ⟨k2 x hx, Inv.key_ne_of_absent hi hk (List.mem_of_mem_drop hx)⟩
    · intro x hx
      rw [List.mem_singleton] at hx
      rw [hx]
      exact k3
  | some e =>
    rw [load_present hk] at h
    cases h
    refine sorted_touch hi hs hL hmax hk rfl ?_
    intro a
    by_cases hae : a = e
    · subst hae
      simp only [Table.moveToEnd, setAt_same, KeepLive_key]
    · simp only [Table.moveToEnd, setAt_other _ _ hae]

theorem Set_sorted {L L' : Option K → Nat} {fuel pick : Nat} {now : Int} {tb tb' : Table K V}
    {key : Option K} {value : Option V} {option : List SetOption}
    (hi : tb.Inv) (hs : tb.SortedBy L) (hL : ∀ x, x ≠ key → L' x = L x)
    (hmax : ∀ x, x ≠ key → L' x < L' key)
    (h : Table.Set fuel pick now tb key value option = some tb') : tb'.SortedBy L' := by
  unfold Table.Set at h
  simp only [] at h
  split at h
  · cases h
  · rename_i tb1 e loaded hl
    have h1 : tb1.SortedBy L' := load_sorted hi hs hL hmax hl
    split at h <;> cases h <;> exact h1

theorem FetchLoop_sorted {L L' : Option K → Nat} {pick : Nat} {now : Int} {key : Option K}
    {d : Option V} {fuel : Nat} {clk : Nat → Int} {tb : Table K V}
    {r : Table K V × Option V × Bool}
    (hi : tb.Inv) (hs : tb.SortedBy L) (hL : ∀ x, x ≠ key → L' x = L x)
    (hmax : ∀ x, x ≠ key → L' x < L' key)
    (h : Table.FetchLoop pick now key d fuel clk tb = some r) : r.1.SortedBy L' := by
  induction fuel generalizing clk tb L with
  | zero => simp [Table.FetchLoop] at h
  | succ n ih =>
    unfold Table.FetchLoop at h
    split at h
    · cases h
    · rename_i tb1 e loaded hl
      have h1 : tb1.SortedBy L' := load_sorted hi hs hL hmax hl
      have hi1 : tb1.Inv := load_inv hl hi
      simp only [] at h
      split at h
      · split at h
        · cases h
          exact h1
        · exact ih hi1 h1 (fun _ _ => rfl) h
      · cases h
        exact h1

theorem remove_sorted {L L' : Option K → Nat} {tb : Table K V} (hi : tb.Inv)
    (hs : tb.SortedBy L) (hL : ∀ x, L' x = L x) (key : Option K) (e s : Nat) :
    (Table.releaseContainer
      { tb with mp := mpDelete tb.mp key, ll := tb.ll.erase e } e s).1.SortedBy L' := by
  obtain ⟨h1, _, _, _, _, _, h7⟩ := releaseContainer_frame
    ({ tb with mp := mpDelete tb.mp key, ll := tb.ll.erase e } : Table K V) e s
  refine sorted_sub hs hL (by rw [h1]; exact List.erase_sublist e tb.ll) ?_
  intro a ha
  rw [h1] at ha
  have hae : a ≠ e := fun hEq => (List.Nodup.not_mem_erase hi.1) (hEq ▸ ha)
  rw [h7 a hae]

/-- One operation keeps the recency list ordered by last access. -/
theorem step_sorted {fuel : Nat} {ops : List (Op K V)} {tb tb' : Table K V} {op : Op K V}
    (hi : tb.Inv) (hs : tb.SortedBy (lastAccess ops))
    (h : tb.step fuel op = some tb') : tb'.SortedBy (lastAccess (ops ++ [op])) := by
  cases op with
  | Get now key =>
    obtain ⟨hL, hmax⟩ := lastAccess_touch ops (Op.Get now key : Op K V) key (fun _ => rfl)
    cases h
    cases hk : mpGet tb.mp key with
    | none =>
      rw [Get_absent hk]
      refine sorted_core hs hL hmax tb.ll [] (List.Sublist.refl tb.ll) ?_ ?_ (Nat.zero_le 1)
        (by simp)
      · exact fun a ha => ⟨rfl, Inv.key_ne_of_absent hi hk ha⟩
      · intro e he
        cases he
    | some e =>
      rw [Get_present hk]
      exact sorted_touch hi hs hL hmax hk rfl (fun _ => rfl)
  | Fetch pick now clk key d =>
    obtain ⟨hL, hmax⟩ :=
      lastAccess_touch ops (Op.Fetch pick now clk key d : Op K V) key (fun _ => rfl)
    simp only [Table.step, Table.Fetch, Option.map_eq_some'] at h
    obtain ⟨r, hr, rfl⟩ := h
    exact FetchLoop_sorted hi hs hL hmax hr
  | Set pick now key value option =>
    obtain ⟨hL, hmax⟩ :=
      lastAccess_touch ops (Op.Set pick now key value option : Op K V) key (fun _ => rfl)
    exact Set_sorted hi hs hL hmax h
  | KeepLive now key option =>
    obtain ⟨hL, hmax⟩ :=
      lastAccess_touch ops (Op.KeepLive now key option : Op K V) key (fun _ => rfl)
    cases h
    cases hk : mpGet tb.mp key with
    | none =>
      have hE : tb.KeepLive now key option = (tb, false) := by
        unfold Table.KeepLive
        rw [hk]
      rw [hE]
      refine sorted_core hs hL hmax tb.ll [] (List.Sublist.refl tb.ll) ?_ ?_ (Nat.zero_le 1)
        (by simp)
      · exact fun a ha => ⟨rfl, Inv.key_ne_of_absent hi hk ha⟩
      · intro e he
        cases he
    | some e =>
      have hE : tb.KeepLive now key option =
          ({ tb.moveToEnd e with store := (setAt (tb.moveToEnd e).store e
            (((tb.moveToEnd e).store e).KeepLive (tb.keepLiveOf option)
              (tb.store e).GetSeq now).1) }, false) := by
        unfold Table.KeepLive
        rw [hk]
      rw [hE]
      refine sorted_touch hi hs hL hmax hk rfl ?_
      intro a
      by_cases hae : a = e
      · subst hae
        simp only [Table.moveToEnd, setAt_same, KeepLive_key]
      · simp only [Table.moveToEnd, setAt_other _ _ hae]
  | Delete key =>
    have hL := lastAccess_skip ops (Op.Delete key : Op K V) (fun _ => rfl)
    cases h
    unfold Table.Delete
    split
    · exact sorted_sub hs hL (List.Sublist.refl _) (fun _ _ => rfl)
    · exact remove_sorted hi hs hL key _ _
  | Keys now =>
    have hL := lastAccess_skip ops (Op.Keys now : Op K V) (fun _ => rfl)
    cases h
    exact sorted_sub hs hL (List.Sublist.refl _) (fun _ _ => rfl)
  | Clear =>
    cases h
    unfold Table.SortedBy
    rw [(Clear_fields tb).1]
    exact List.Pairwise.nil
  | deleteBySeq key seq =>
    have hL := lastAccess_skip ops (Op.deleteBySeq key seq : Op K V) (fun _ => rfl)
    cases h
    unfold Table.deleteBySeq
    split
    · exact sorted_sub hs hL (List.Sublist.refl _) (fun _ _ => rfl)
    · simp only
      split
      · exact sorted_sub hs hL (List.Sublist.refl _) (fun _ _ => rfl)
      · exact remove_sorted hi hs hL key _ _

theorem run_snoc {fuel : Nat} {tb tb' : Table K V} {ops : List (Op K V)} {op : Op K V}
    (h : tb.run fuel (ops ++ [op]) = some tb') :
    ∃ t, tb.run fuel ops = some t ∧ t.step fuel op = some tb' := by
  rw [run_append] at h
  cases hr : tb.run fuel ops with
  | none => rw [hr] at h; cases h
  | some t =>
    rw [hr] at h
    refine ⟨t, rfl, ?_⟩
    simp only [Option.bind, Table.run] at h
    cases hs : t.step fuel op with
    | none => rw [hs] at h; cases h
    | some t' => rw [hs] at h; exact h

/-- After any sequence of operations on a new table the recency list is ordered by last
access: an element nearer the front carries a key whose last access is older. -/
theorem run_sorted {fuel : Nat} {ops : List (Op K V)} {tb : Table K V} (maxEntry ttl : Int)
    (pool : List (container K V)) (h : (NewTable maxEntry ttl pool).run fuel ops = some tb) :
    tb.SortedBy (lastAccess ops) := by
  induction ops using List.reverseRecOn generalizing tb with
  | nil =>
    cases h
    unfold Table.SortedBy
    rw [show (NewTable maxEntry ttl pool).ll = [] from (Clear_fields _).1]
    exact List.Pairwise.nil
  | append_singleton l a ih =>
    obtain ⟨t, ht, hs⟩ := run_snoc h
    exact step_sorted (run_inv ht (NewTable_inv maxEntry ttl pool)) (ih ht) hs

theorem evictBody_open (tb : Table K V) {e : Nat} (he : tb.ll.head? = some e)
    (hc : (tb.store e).closed = false) :
    tb.evictBody.mp = mpDelete tb.mp (tb.store e).key ∧ tb.evictBody.ll = tb.ll.erase e ∧
    tb.evictBody.calls = tb.calls ++
      [{ key := (tb.store e).key, new := none, eld := (tb.store e).data, release := true }] := by
  unfold Table.evictBody
  rw [he]
  simp only []
  rw [releaseContainer_open tb e hc]
  exact ⟨rfl, rfl, rfl⟩

/-- What `add` does for an absent key in a full table (`maxEntry > 0` elements): it returns
after evicting exactly the element at the front of the recency list, whose release is the one
exchanger call it makes. -/
theorem add_full {tb : Table K V} (hi : tb.Inv) (hpos : 0 < tb.maxEntry)
    (hfull : (tb.ll.length : Int) = tb.maxEntry) {fuel : Nat} (hf : 2 ≤ fuel) (pick : Nat)
    (now : Int) (key : Option K) (data : Option V) (keepLive : Int) :
    ∃ tb' e0, tb.ll.head? = some e0 ∧
      Table.add fuel pick now tb key data keepLive = some (tb', tb.fresh) ∧
      tb'.mp = mpDelete (mpSet tb.mp key tb.fresh) (tb.store e0).key ∧
      tb'.calls = tb.calls ++
        [{ key := (tb.store e0).key, new := none, eld := (tb.store e0).data,
           release := true }] ∧
      (tb'.store tb.fresh).key = key ∧ (tb'.store tb.fresh).data = data ∧
      (tb'.store tb.fresh).closed = false := by
  obtain ⟨f1, f2, _, f4, _, f6, f7, f8⟩ := addInsert_frame tb pick key data
  have hfr : tb.fresh ∉ tb.ll := fun hin => lt_irrefl _ (hi.2.2.2 _ hin).2.2
  cases hl : tb.ll with
  | nil =>
    rw [hl] at hfull
    simp only [List.length_nil, Nat.cast_zero] at hfull
    omega
  | cons e0 rest =>
    have he0 : e0 ∈ tb.ll := by rw [hl]; simp
    have hne : e0 ≠ tb.fresh := fun hEq => hfr (hEq ▸ he0)
    have hhead : (tb.addInsert pick key data).ll.head? = some e0 := by
      rw [f1, hl]; rfl
    have hc : ((tb.addInsert pick key data).store e0).closed = false := by
      rw [f8 e0 hne]
      exact (hi.2.2.2 e0 he0).2.1
    obtain ⟨b1, _, b3⟩ := evictBody_open (tb.addInsert pick key data) hhead hc
    rw [f8 e0 hne, f2] at b1
    rw [f8 e0 hne, f6] at b3
    have hz : (tb.addInsert pick key data).maxEntry ≠ 0 := by rw [f4]; omega
    have hlen : ((tb.addInsert pick key data).ll.length : Int) = tb.ll.length + 1 := by
      rw [f1]; simp
    have hj : (((tb.addInsert pick key data).ll.length : Int) -
        (tb.addInsert pick key data).maxEntry).toNat = 1 := by
      rw [hlen, f4]; omega
    have hloop : Table.evictLoop fuel (tb.addInsert pick key data) =
        some (tb.addInsert pick key data).evictBody := by
      rw [evictLoop_eq fuel _ (by rw [f4]; omega) (by rw [hj]; omega), hj]
      rfl
    have c1 : (tb.addInsert pick key data).evictBody.store tb.fresh =
        (tb.newContainer pick key data).2 := by
      rw [(evictBody_frame (tb.addInsert pick key data)).2.2.2 tb.fresh
        (by rw [hhead]; intro a ha; cases ha; exact fun hEq => hne hEq.symm), f7]
    unfold Table.add
    simp only []
    rw [if_pos hz, hloop]
    simp only []
    by_cases hp : 0 < keepLive
    · rw [if_pos hp]
      refine ⟨_, e0, rfl, rfl, b1, b3, ?_, ?_, ?_⟩
      · simp only [setAt_same, KeepLive_key, c1]
        rfl
      · simp only [setAt_same, KeepLive_data, c1]
        rfl
      · simp only [setAt_same, KeepLive_closed, c1]
        rfl
    · rw [if_neg hp]
      refine ⟨_, e0, rfl, rfl, b1, b3, ?_, ?_, ?_⟩
      · rw [c1]; rfl
      · rw [c1]; rfl
      · rw [c1]; rfl

theorem releases_append (a b : List (Event K V)) :
    releases (a ++ b) = releases a ++ releases b := by
  simp [releases]

theorem getD_of_isSome {α : Type} {o : Option α} {d : α} (h : o.isSome = true) :
    o = some (o.getD d) := by
  cases o with
  | none => cases h
  | some a => rfl

theorem deleteBySeq_absent {tb : Table K V} {key : Option K} (hk : mpGet tb.mp key = none)
    (seq : Nat) : tb.deleteBySeq key seq = (tb, false) := by
  unfold Table.deleteBySeq
  rw [hk]

theorem deleteBySeq_stale {tb : Table K V} {key : Option K} {e : Nat}
    (hk : mpGet tb.mp key = some e) {seq : Nat} (hs : (tb.store e).seq ≠ seq) :
    tb.deleteBySeq key seq = (tb, false) := by
  unfold Table.deleteBySeq
  rw [hk]
  simp only []
  rw [if_pos hs]

theorem deleteBySeq_present {tb : Table K V} (hi : tb.Inv) {key : Option K} {e : Nat}
    (hk : mpGet tb.mp key = some e) :
    tb.deleteBySeq key (tb.store e).seq =
      ({ tb with
          mp := mpDelete tb.mp key, ll := tb.ll.erase e,
          store := (setAt tb.store e
            { tb.store e with timer := stopTimer (tb.store e).timer, closed := true }),
          calls := tb.calls ++
            [{ key := key, new := none, eld := (tb.store e).data, release := true }],
          pool := { tb.store e with timer := stopTimer (tb.store e).timer, closed := true } ::
            tb.pool }, true) := by
  have hm := hi.2.2.1 _ (mem_of_mpGet hk)
  have hc := (hi.2.2.2 e hm.1).2.1
  unfold Table.deleteBySeq
  rw [hk]
  simp only [ne_eq, not_true_eq_false, if_false]
  have h := releaseContainer_open
    ({ tb with mp := mpDelete tb.mp key, ll := tb.ll.erase e } : Table K V) e hc
  simp only [container.GetSeq] at h
  rw [h, hm.2]

theorem KeepLive_present {tb : Table K V} {key : Option K} {e : Nat}
    (hk : mpGet tb.mp key = some e) (now : Int) (option : List KeepLiveOption) :
    tb.KeepLive now key option =
      ({ tb.moveToEnd e with store := (setAt tb.store e
        ((tb.store e).KeepLive (tb.keepLiveOf option) (tb.store e).GetSeq now).1) },
        false) := by
  unfold Table.KeepLive
  rw [hk]
  rfl

/-- In a well-formed table the key index maps `k` to `e` exactly when `e` is listed and its
container carries `k`. -/
theorem Inv.mpGet_iff {tb : Table K V} (hi : tb.Inv) (k : Option K) (e : Nat) :
    mpGet tb.mp k = some e ↔ (e ∈ tb.ll ∧ (tb.store e).key = k) := by
  constructor
  · intro h
    exact hi.2.2.1 _ (mem_of_mpGet h)
  · rintro ⟨he, hk⟩
    have := mpGet_of_mem hi.2.1 (hi.2.2.2 e he).1
    rw [hk] at this
    exact this

/-- The loop of `Clear` over a list of distinct elements whose containers are not closed: one
release is reported per element, in order, every listed container ends up closed, and no other
container is touched. -/
theorem clear_fold (l : List Nat) (t : Table K V) (hn : l.Nodup)
    (hc : ∀ e ∈ l, (t.store e).closed = false) :
    (l.foldl (fun (t : Table K V) f =>
        { t with store := (setAt t.store f ((t.store f).release (t.store f).GetSeq).1),
                 calls := t.calls ++ ((t.store f).release (t.store f).GetSeq).2.1 }) t).calls =
      t.calls ++ l.map (fun e =>
        { key := (t.store e).key, new := none, eld := (t.store e).data, release := true }) ∧
    (∀ e ∈ l, ((l.foldl (fun (t : Table K V) f =>
        { t with store := (setAt t.store f ((t.store f).release (t.store f).GetSeq).1),
                 calls := t.calls ++ ((t.store f).release (t.store f).GetSeq).2.1 })
        t).store e).closed = true) ∧
    (∀ j, j ∉ l → (l.foldl (fun (t : Table K V) f =>
        { t with store := (setAt t.store f ((t.store f).release (t.store f).GetSeq).1),
                 calls := t.calls ++ ((t.store f).release (t.store f).GetSeq).2.1 })
        t).store j = t.store j) ∧
    (l.foldl (fun (t : Table K V) f =>
        { t with store := (setAt t.store f ((t.store f).release (t.store f).GetSeq).1),
                 calls := t.calls ++ ((t.store f).release (t.store f).GetSeq).2.1 }) t).seq =
      t.seq := by
  induction l generalizing t with
  | nil => exact ⟨by simp, fun e he => (by cases he), fun _ _ => rfl, rfl⟩
  | cons a l ih =>
    have hnd := List.nodup_cons.1 hn
    have hca : (t.store a).closed = false := hc a (by simp)
    have hrel : (t.store a).release (t.store a).GetSeq =
        ({ t.store a with timer := stopTimer (t.store a).timer, closed := true },
          [{ key := (t.store a).key, new := none, eld := (t.store a).data, release := true }],
          true) := by
      simp [container.release, container.GetSeq, hca]
    rw [List.foldl_cons]
    simp only [hrel]
    have hstep : ∀ e, e ≠ a →
        (setAt t.store a
          { t.store a with timer := stopTimer (t.store a).timer, closed := true }) e =
          t.store e := fun e he => setAt_other _ _ he
    obtain ⟨i1, i2, i3, i4⟩ := ih
      ({ t with
          store := (setAt t.store a
            { t.store a with timer := stopTimer (t.store a).timer, closed := true }),
          calls := t.calls ++
            [{ key := (t.store a).key, new := none, eld := (t.store a).data,
               release := true }] } : Table K V) hnd.2
      (by
        intro e he
        have hea : e ≠ a := fun hEq => hnd.1 (hEq ▸ he)
        simp only [hstep e hea]
        exact hc e (by simp [he]))
    refine ⟨?_, ?_, ?_, ?_⟩
    · rw [i1]
      simp only [List.map_cons, List.append_assoc, List.singleton_append]
      congr 2
      apply List.map_congr_left
      intro e he
      have hea : e ≠ a := fun hEq => hnd.1 (hEq ▸ he)
      simp only [hstep e hea]
    · intro e he
      rcases List.mem_cons.1 he with h | h
      · subst h
        rw [i3 e hnd.1]
        simp only [setAt_same]
      · exact i2 e h
    · intro j hj
      simp only [List.mem_cons, not_or] at hj
      rw [i3 j hj.2]
      exact hstep j hj.1
    · rw [i4]

theorem Clear_calls {tb : Table K V} (hi : tb.Inv) :
    tb.Clear.calls = tb.calls ++ tb.ll.map (fun e =>
      { key := (tb.store e).key, new := none, eld := (tb.store e).data, release := true }) ∧
    tb.Clear.seq = tb.seq := by
  obtain ⟨h1, _, _, h4⟩ := clear_fold tb.ll tb hi.1 (fun e he => (hi.2.2.2 e he).2.1)
  exact ⟨h1, h4⟩

theorem SeqFrame.refl (tb : Table K V) : tb.SeqFrame tb := ⟨rfl, rfl, fun _ => rfl⟩

theorem SeqFrame.trans {a b c : Table K V} (h1 : a.SeqFrame b) (h2 : b.SeqFrame c) :
    a.SeqFrame c :=
  ⟨h2.1.trans h1.1, h2.2.1.trans h1.2.1, fun j => (h2.2.2 j).trans (h1.2.2 j)⟩

theorem SeqInv.of_seqFrame {tb tb' : Table K V} (h : tb.SeqInv) (hf : tb.SeqFrame tb') :
    tb'.SeqInv := by
  refine ⟨by rw [hf.1, hf.2.1]; exact h.1, fun e he => ?_⟩
  rw [hf.2.2 e]
  exact h.2 e (hf.2.1 ▸ he)

theorem release_seq (c : container K V) (s : Nat) : (c.release s).1.seq = c.seq := by
  unfold container.release
  split_ifs <;> rfl

theorem touch_seqFrame (tb : Table K V) (e : Nat) (c : container K V)
    (hc : c.seq = (tb.store e).seq) :
    tb.SeqFrame { tb with store := (setAt tb.store e c) } := by
  refine ⟨rfl, rfl, fun j => ?_⟩
  by_cases hj : j = e
  · subst hj
    simp only [setAt_same, hc]
  · simp only [setAt_other _ _ hj]

theorem releaseContainer_seqFrame (tb : Table K V) (e s : Nat) :
    tb.SeqFrame (tb.releaseContainer e s).1 := by
  unfold Table.releaseContainer
  simp only []
  by_cases h : ((tb.store e).Release s).2.2 = true
  · rw [if_pos h]
    refine ⟨rfl, rfl, fun j => ?_⟩
    by_cases hj : j = e
    · subst hj
      simp only [setAt_same]
      exact release_seq _ _
    · simp only [setAt_other _ _ hj]
  · rw [if_neg h]
    exact SeqFrame.refl tb

theorem Get_seqFrame (tb : Table K V) (now : Int) (key : Option K) :
    tb.SeqFrame (tb.Get now key).1 := by
  unfold Table.Get
  split
  · exact SeqFrame.refl tb
  · exact ⟨rfl, rfl, fun _ => rfl⟩

theorem KeepLive_seqFrame (tb : Table K V) (now : Int) (key : Option K)
    (option : List KeepLiveOption) : tb.SeqFrame (tb.KeepLive now key option).1 := by
  cases hk : mpGet tb.mp key with
  | none =>
    have hE : tb.KeepLive now key option = (tb, false) := by
      unfold Table.KeepLive
      rw [hk]
    rw [hE]
    exact SeqFrame.refl tb
  | some e =>
    rw [KeepLive_present hk]
    have := touch_seqFrame (tb.moveToEnd e) e
      ((tb.store e).KeepLive (tb.keepLiveOf option) (tb.store e).GetSeq now).1
      (KeepLive_seq _ _ _ _)
    exact ⟨this.1, this.2.1, this.2.2⟩

theorem remove_seqFrame (tb : Table K V) (key : Option K) (e s : Nat) :
    tb.SeqFrame (Table.releaseContainer
      { tb with mp := mpDelete tb.mp key, ll := tb.ll.erase e } e s).1 := by
  have := releaseContainer_seqFrame
    ({ tb with mp := mpDelete tb.mp key, ll := tb.ll.erase e } : Table K V) e s
  exact ⟨this.1, this.2.1, this.2.2⟩

theorem Delete_seqFrame (tb : Table K V) (key : Option K) :
    tb.SeqFrame (tb.Delete key).1 := by
  unfold Table.Delete
  split
  · exact SeqFrame.refl tb
  · exact remove_seqFrame tb key _ _

theorem deleteBySeq_seqFrame (tb : Table K V) (key : Option K) (seq : Nat) :
    tb.SeqFrame (tb.deleteBySeq key seq).1 := by
  unfold Table.deleteBySeq
  split
  · exact SeqFrame.refl tb
  · simp only
    split
    · exact SeqFrame.refl tb
    · exact remove_seqFrame tb key _ _

theorem Clear_seqFrame (tb : Table K V) : tb.SeqFrame tb.Clear := by
  unfold Table.Clear
  simp only []
  suffices h : ∀ (l : List Nat) (t : Table K V), t.SeqFrame
      (l.foldl (fun (t : Table K V) f =>
        { t with store := (setAt t.store f ((t.store f).release (t.store f).GetSeq).1),
                 calls := t.calls ++ ((t.store f).release (t.store f).GetSeq).2.1 }) t) by
    have := h tb.ll tb
    exact ⟨this.1, this.2.1, this.2.2⟩
  intro l
  induction l with
  | nil => exact fun t => SeqFrame.refl t
  | cons a l ih =>
    intro t
    rw [List.foldl_cons]
    refine SeqFrame.trans ?_ (ih _)
    have := touch_seqFrame t a ((t.store a).release (t.store a).GetSeq).1 (release_seq _ _)
    exact ⟨this.1, this.2.1, this.2.2⟩

theorem evictBody_seqFrame (tb : Table K V) : tb.SeqFrame tb.evictBody := by
  unfold Table.evictBody
  split
  · exact SeqFrame.refl tb
  · rename_i e he
    have := releaseContainer_seqFrame tb e (tb.store e).GetSeq
    exact ⟨this.1, this.2.1, this.2.2⟩

theorem evictLoop_seqFrame {fuel : Nat} {tb tb' : Table K V}
    (h : Table.evictLoop fuel tb = some tb') : tb.SeqFrame tb' := by
  induction fuel generalizing tb with
  | zero => simp [Table.evictLoop] at h
  | succ n ih =>
    unfold Table.evictLoop at h
    split at h
    · exact SeqFrame.trans (evictBody_seqFrame tb) (ih h)
    · cases h
      exact SeqFrame.refl _

theorem addInsert_seqInv {tb : Table K V} (pick : Nat) (key : Option K) (data : Option V)
    (h : tb.SeqInv) : (tb.addInsert pick key data).SeqInv := by
  obtain ⟨_, _, f3, _, _, _, f7, f8⟩ := addInsert_frame tb pick key data
  have hs : (tb.addInsert pick key data).seq = (tb.seq + 1) % 2 ^ 64 := rfl
  have hmod : (tb.seq + 1) % 2 ^ 64 = (tb.fresh + 1) % 2 ^ 64 := by
    rw [h.1, Nat.add_mod, Nat.mod_mod, ← Nat.add_mod]
  refine ⟨by rw [hs, f3, hmod], fun e he => ?_⟩
  rw [f3] at he
  by_cases hef : e = tb.fresh
  · subst hef
    rw [f7, (newContainer_fields tb pick key data).2.2.2.1, hmod]
  · rw [f8 e hef]
    exact h.2 e (by omega)

theorem add_seqInv {fuel pick : Nat} {now : Int} {tb : Table K V} {key : Option K}
    {data : Option V} {keepLive : Int} {r : Table K V × Nat}
    (h : Table.add fuel pick now tb key data keepLive = some r) (hi : tb.SeqInv) :
    r.1.SeqInv := by
  obtain ⟨tb3, h3, _, hr⟩ := add_some h
  have hi3 : tb3.SeqInv := by
    split at h3
    · exact SeqInv.of_seqFrame (addInsert_seqInv pick key data hi) (evictLoop_seqFrame h3)
    · cases h3
      exact addInsert_seqInv pick key data hi
  rw [hr]
  split
  · exact SeqInv.of_seqFrame hi3 (touch_seqFrame _ _ _ (KeepLive_seq _ _ _ _))
  · exact hi3

theorem load_seqInv {fuel pick : Nat} {now : Int} {tb : Table K V} {key : Option K}
    {data : Option V} {keepLive : Int} {r : Table K V × Nat × Bool}
    (h : Table.load fuel pick now tb key data keepLive = some r) (hi : tb.SeqInv) :
    r.1.SeqInv := by
  cases hk : mpGet tb.mp key with
  | none =>
    rw [load_absent hk, Option.map_eq_some'] at h
    obtain ⟨a, ha, rfl⟩ := h
    exact add_seqInv ha hi
  | some e =>
    rw [load_present hk] at h
    cases h
    have := touch_seqFrame tb e ((tb.store e).KeepLive keepLive (tb.store e).GetSeq now).1
      (KeepLive_seq _ _ _ _)
    exact SeqInv.of_seqFrame hi ⟨this.1, this.2.1, this.2.2⟩

theorem Set_seqInv {fuel pick : Nat} {now : Int} {tb tb' : Table K V} {key : Option K}
    {value : Option V} {option : List SetOption}
    (h : Table.Set fuel pick now tb key value option = some tb') (hi : tb.SeqInv) :
    tb'.SeqInv := by
  unfold Table.Set at h
  simp only [] at h
  split at h
  · cases h
  · rename_i tb1 e loaded hl
    have h1 : tb1.SeqInv := load_seqInv hl hi
    split at h <;> cases h <;> exact h1

theorem FetchLoop_seqInv {pick : Nat} {now : Int} {key : Option K} {d : Option V}
    {fuel : Nat} {clk : Nat → Int} {tb : Table K V} {r : Table K V × Option V × Bool}
    (h : Table.FetchLoop pick now key d fuel clk tb = some r) (hi : tb.SeqInv) :
    r.1.SeqInv := by
  induction fuel generalizing clk tb with
  | zero => simp [Table.FetchLoop] at h
  | succ n ih =>
    unfold Table.FetchLoop at h
    split at h
    · cases h
    · rename_i tb1 e loaded hl
      have h1 : tb1.SeqInv := load_seqInv hl hi
      simp only [] at h
      split at h
      · split at h
        · cases h
          exact h1
        · exact ih h h1
      · cases h
        exact h1

theorem step_seqInv {fuel : Nat} {tb tb' : Table K V} {op : Op K V}
    (h : tb.step fuel op = some tb') (hi : tb.SeqInv) : tb'.SeqInv := by
  cases op with
  | Get now key => cases h; exact SeqInv.of_seqFrame hi (Get_seqFrame tb now key)
  | Fetch pick now clk key d =>
    simp only [Table.step, Table.Fetch, Option.map_eq_some'] at h
    obtain ⟨r, hr, rfl⟩ := h
    exact FetchLoop_seqInv hr hi
  | Set pick now key value option => exact Set_seqInv h hi
  | KeepLive now key option =>
    cases h; exact SeqInv.of_seqFrame hi (KeepLive_seqFrame tb now key option)
  | Delete key => cases h; exact SeqInv.of_seqFrame hi (Delete_seqFrame tb key)
  | Keys now => cases h; exact hi
  | Clear => cases h; exact SeqInv.of_seqFrame hi (Clear_seqFrame tb)
  | deleteBySeq key seq => cases h; exact SeqInv.of_seqFrame hi (deleteBySeq_seqFrame tb key seq)

theorem run_seqInv {fuel : Nat} {ops : List (Op K V)} {tb tb' : Table K V}
    (h : tb.run fuel ops = some tb') (hi : tb.SeqInv) : tb'.SeqInv := by
  induction ops generalizing tb with
  | nil => cases h; exact hi
  | cons op ops ih =>
    unfold Table.run at h
    split at h
    · cases h
    · rename_i tb1 h1
      exact ih h (step_seqInv h1 hi)

theorem NewTable_seqInv (maxEntry keepLiveDuration : Int) (pool : List (container K V)) :
    (NewTable maxEntry keepLiveDuration pool).SeqInv := by
  refine SeqInv.of_seqFrame ?_ (Clear_seqFrame _)
  exact ⟨rfl, fun e he => absurd he (Nat.not_lt_zero e)⟩

/-- With a negative `maxEntry` the eviction loop does not exit, whatever the fuel. -/
theorem evictLoop_never {tb : Table K V} (h : tb.maxEntry < 0) (fuel : Nat) :
    Table.evictLoop fuel tb = none := by
  induction fuel generalizing tb with
  | zero => rfl
  | succ n ih =>
    unfold Table.evictLoop
    have hlen : tb.maxEntry < (tb.ll.length : Int) :=
      lt_of_lt_of_le h (Int.natCast_nonneg _)
    rw [if_pos hlen]
    exact ih (by rw [(evictBody_frame tb).1]; exact h)

theorem add_never {tb : Table K V} (h : tb.maxEntry < 0) (fuel pick : Nat) (now : Int)
    (key : Option K) (data : Option V) (keepLive : Int) :
    Table.add fuel pick now tb key data keepLive = none := by
  have hm : (tb.addInsert pick key data).maxEntry = tb.maxEntry := rfl
  unfold Table.add
  simp only []
  rw [if_pos (by rw [hm]; exact ne_of_lt h), evictLoop_never (by rw [hm]; exact h)]

/-- With `maxEntry >= 0`, `add` returns: the list it leaves is the old list with the new element
appended and the first `length + 1 - maxEntry` elements dropped (none when `maxEntry = 0`). -/
theorem add_returns {tb : Table K V} (h0 : 0 ≤ tb.maxEntry) {fuel : Nat}
    (hf : tb.ll.length + 1 < fuel) (pick : Nat) (now : Int) (key : Option K)
    (data : Option V) (keepLive : Int) :
    ∃ tb', Table.add fuel pick now tb key data keepLive = some (tb', tb.fresh) ∧
      tb'.ll = (tb.ll ++ [tb.fresh]).drop (if tb.maxEntry = 0 then 0
        else (max 0 ((tb.ll.length : Int) + 1 - tb.maxEntry)).toNat) := by
  obtain ⟨f1, _, _, f4, _, _, _, _⟩ := addInsert_frame tb pick key data
  have key3 : ∃ tb3, (if (tb.addInsert pick key data).maxEntry ≠ 0
        then Table.evictLoop fuel (tb.addInsert pick key data)
        else some (tb.addInsert pick key data)) = some tb3 ∧
      tb3.ll = (tb.ll ++ [tb.fresh]).drop (if tb.maxEntry = 0 then 0
        else (max 0 ((tb.ll.length : Int) + 1 - tb.maxEntry)).toNat) := by
    by_cases hz : (tb.addInsert pick key data).maxEntry ≠ 0
    · rw [if_pos hz]
      rw [f4] at hz
      have hlen : ((tb.addInsert pick key data).ll.length : Int) = tb.ll.length + 1 := by
        rw [f1]; simp
      have hj : (((tb.addInsert pick key data).ll.length : Int) -
          (tb.addInsert pick key data).maxEntry).toNat =
          (max 0 ((tb.ll.length : Int) + 1 - tb.maxEntry)).toNat := by
        rw [hlen, f4]; omega
      rw [evictLoop_eq fuel _ (by rw [f4]; exact h0) (by rw [hj]; omega), hj, if_neg hz]
      exact ⟨_, rfl, by rw [(evictIter_frame _ _).1, f1]⟩
    · rw [if_neg hz]
      rw [f4, ne_eq, not_not] at hz
      rw [if_pos hz]
      exact ⟨_, rfl, by rw [f1]; rfl⟩
  obtain ⟨tb3, e3, l3⟩ := key3
  unfold Table.add
  simp only []
  rw [e3]
  simp only []
  by_cases hp : 0 < keepLive
  · rw [if_pos hp]
    exact ⟨_, rfl, l3⟩
  · rw [if_neg hp]
    exact ⟨_, rfl, l3⟩

/-- The retry loop of `Fetch` on a well-formed table with `maxEntry >= 0` returns as soon as a
pass reads an instant `clk i` with `now < clk i + keepLiveDuration` (at once when
`keepLiveDuration = 0`, and on a miss). -/
theorem FetchLoop_returns (pick : Nat) (now : Int) (key : Option K) (d : Option V) (i : Nat) :
    ∀ (clk : Nat → Int) (tb : Table K V), tb.Inv → 0 ≤ tb.maxEntry →
      (tb.keepLiveDuration = 0 ∨ now < clk i + tb.keepLiveDuration) →
      ∀ fuel, tb.ll.length + 1 + i ≤ fuel →
        ∃ r, Table.FetchLoop pick now key d fuel clk tb = some r := by
  induction i with
  | zero =>
    intro clk tb hi h0 hclk fuel hf
    obtain ⟨m, rfl⟩ : ∃ m, fuel = m + 1 := ⟨fuel - 1, by omega⟩
    cases hk : mpGet tb.mp key with
    | none =>
      obtain ⟨tb1, h1, _⟩ :=
        add_absent hi h0 (by omega : tb.ll.length < m + 1) pick (clk 0) d
          tb.keepLiveDuration hk
      refine ⟨(tb1, d, false), ?_⟩
      unfold Table.FetchLoop
      rw [load_absent hk, h1]
      rfl
    | some e =>
      have hm := hi.2.2.1 _ (mem_of_mpGet hk)
      have hc : (tb.store e).closed = false := (hi.2.2.2 e hm.1).2.1
      have hlive : ((tb.store e).KeepLive tb.keepLiveDuration (tb.store e).seq (clk 0)).1.GetData
          now ((tb.store e).KeepLive tb.keepLiveDuration (tb.store e).seq (clk 0)).1.seq =
          ((tb.store e).data, true) := by
        rw [GetData_live, KeepLive_data]
        · rw [KeepLive_closed, hc]
        · intro t' ht'
          simp only [container.KeepLive, hc] at ht'
          split_ifs at ht' <;> simp_all
      unfold Table.FetchLoop
      rw [load_present hk]
      simp only []
      split
      · split
        · exact ⟨_, rfl⟩
        · rename_i hfail
          exact absurd (by simp only [Table.moveToEnd, setAt_same, container.GetSeq, hlive])
            hfail
      · exact ⟨_, rfl⟩
  | succ n ih =>
    intro clk tb hi h0 hclk fuel hf
    obtain ⟨m, rfl⟩ : ∃ m, fuel = m + 1 := ⟨fuel - 1, by omega⟩
    cases hk : mpGet tb.mp key with
    | none =>
      obtain ⟨tb1, h1, _⟩ :=
        add_absent hi h0 (by omega : tb.ll.length < m + 1) pick (clk 0) d
          tb.keepLiveDuration hk
      refine ⟨(tb1, d, false), ?_⟩
      unfold Table.FetchLoop
      rw [load_absent hk, h1]
      rfl
    | some e =>
      have hl := load_present hk (m + 1) pick (clk 0) d tb.keepLiveDuration
      have hi1 := load_inv hl hi
      have hnext := ih (fun j => clk (j + 1)) _ hi1 h0 hclk m (by
        simp only [Table.moveToEnd, length_MoveToBack]
        omega)
      obtain ⟨r, hr⟩ := hnext
      unfold Table.FetchLoop
      rw [hl]
      simp only []
      split
      · split
        · exact ⟨_, rfl⟩
        · exact ⟨r, hr⟩
      · exact ⟨_, rfl⟩

theorem guardedFrom_evictions (n : Nat) (r : List LockEv) (h : guardedFrom true r = true) :
    guardedFrom true ((List.replicate n [LockEv.MapDelete, LockEv.Remove]).flatten ++ r) =
      true := by
  induction n with
  | zero => simpa using h
  | succ k ih =>
    simp only [List.replicate_succ, List.flatten_cons, List.cons_append, List.nil_append,
      List.append_assoc, guardedFrom, Bool.true_and]
    exact ih

/-- Every method other than `KeepLive` mutates the indexes under the write lock only, and
`KeepLive` does so exactly when the key is absent, that is when it mutates nothing. -/
theorem lock_discipline (tb : Table K V) (key : Option K) (seq : Nat) :
    guarded (tb.GetEvents key) = true ∧ guarded (tb.FetchEvents key) = true ∧
    guarded (tb.SetEvents key) = true ∧ guarded (tb.DeleteEvents key) = true ∧
    guarded (tb.deleteBySeqEvents key seq) = true ∧ guarded ClearEvents = true ∧
    guarded KeysEvents = true ∧
    (guarded (tb.KeepLiveEvents key) = true ↔ mpGet tb.mp key = none) := by
  have hload : guarded ([LockEv.Lock] ++ tb.loadEvents key ++ [LockEv.Unlock]) = true := by
    unfold Table.loadEvents
    cases mpGet tb.mp key with
    | none =>
      simp only [guarded, Table.addEvents, List.singleton_append, List.cons_append,
        List.nil_append, List.append_assoc, guardedFrom, Bool.true_and]
      exact guardedFrom_evictions _ _ rfl
    | some e => rfl
  refine ⟨?_, hload, hload, ?_, ?_, rfl, rfl, ?_⟩
  · unfold Table.GetEvents
    cases mpGet tb.mp key <;> rfl
  · unfold Table.DeleteEvents
    cases mpGet tb.mp key <;> rfl
  · unfold Table.deleteBySeqEvents
    cases mpGet tb.mp key with
    | none => rfl
    | some e =>
      simp only []
      split <;> rfl
  · unfold Table.KeepLiveEvents
    cases mpGet tb.mp key with
    | none => simp [guarded, guardedFrom]
    | some e => simp [guarded, guardedFrom]

/-- The exchanger calls of `Set` on a present key, as the code stands: none. -/
theorem Set_present_calls (fuel pick : Nat) (now : Int) (tb : Table K V)
    (key : Option K) (v : Option V) (option : List SetOption) (e : Nat)
    (hk : mpGet tb.mp key = some e) :
    ∃ tb', Table.Set fuel pick now tb key v option = some tb' ∧ tb'.calls = tb.calls :=
  ⟨_, Set_present hk fuel pick now v option, rfl⟩

/-- The exchanger calls of `Set` on an absent key of a well-formed table with `maxEntry >= 0`, as
the code stands: the releases of the containers the insertion evicted, then one call with
`new = v` and `eld = v`. -/
theorem Set_absent_calls (tb : Table K V) (hi : tb.Inv) (h0 : 0 ≤ tb.maxEntry)
    (fuel : Nat) (hf : tb.ll.length < fuel) (pick : Nat) (now : Int) (key : Option K)
    (v : Option V) (option : List SetOption) (hk : mpGet tb.mp key = none) :
    ∃ tb' rel, Table.Set fuel pick now tb key v option = some tb' ∧
      tb'.calls = tb.calls ++ rel ++ [{ key := key, new := v, eld := v, release := false }] ∧
      ∀ ev ∈ rel, ev.release = true := by
  obtain ⟨tb1, h1, _, a1, a2, a3, _, _, ⟨rel, a6, a7⟩, _, _⟩ :=
    add_absent hi h0 hf pick now v (tb.setDuration option) hk
  refine ⟨{ tb1 with calls := tb1.calls ++
      ((tb1.store tb.fresh).Update v (tb1.store tb.fresh).GetSeq).1 }, rel, ?_, ?_, a7⟩
  · unfold Table.Set
    simp only []
    rw [load_absent hk, h1]
    rfl
  · simp only [container.Update, container.GetSeq, a1, a2, a3, a6]
    simp

/-- The exchanger calls of `Fetch` on an absent key of a well-formed table with `maxEntry >= 0`,
as the code stands: only the releases of the containers the insertion evicted. -/
theorem Fetch_absent_calls (tb : Table K V) (hi : tb.Inv) (h0 : 0 ≤ tb.maxEntry)
    (fuel : Nat) (hf : tb.ll.length < fuel) (pick : Nat) (now : Int) (clk : Nat → Int)
    (key : Option K) (d : Option V) (hk : mpGet tb.mp key = none) :
    ∃ tb' rel, Table.Fetch fuel pick now clk tb key d = some (tb', d, false) ∧
      mpGet tb'.mp key = some tb.fresh ∧ (tb'.store tb.fresh).data = d ∧
      tb'.calls = tb.calls ++ rel ∧ ∀ ev ∈ rel, ev.release = true := by
  obtain ⟨tb1, h1, m1, _, a2, _, _, _, ⟨rel, a6, a7⟩, _, _⟩ :=
    add_absent hi h0 hf pick (clk 0) d tb.keepLiveDuration hk
  refine ⟨tb1, rel, ?_, m1, a2, a6, a7⟩
  obtain ⟨m, rfl⟩ : ∃ m, fuel = m + 1 := ⟨fuel - 1, by omega⟩
  unfold Table.Fetch Table.FetchLoop
  rw [load_absent hk, h1]
  rfl

end Lemmas

section Claims

variable {K V : Type} [DecidableEq K]

/-- C1, evaluated at the failing input: in `exStale` (an empty table with `maxEntry = 0` and
default TTL 0, whose pool holds a released container with the past deadline 10), `Set(2, 20)`
at instant 30 takes that container from the pool, and the `Get(2)` that follows at instant 31
returns `(nil, false)` although the effective TTL is 0. -/
theorem Set_Get_stale_deadline :
    mpGet exStale.mp (some 2) = none ∧ 0 ≤ exStale.maxEntry ∧ exStale.setDuration [] = 0 ∧
    (Table.Set 1 0 30 exStale (some 2) (some 20) []).map
      (fun t => (t.Get 31 (some 2)).2) = some (none, false) := by
  decide

/-- C2: `Set(k, v)` on a key that is present with a container that is not closed leaves the
stored value `u` in place: `Set` returns, the key still maps to the same element, the container
still holds `u`, its deadline is the refreshed one (`now + ttl`, none when the effective TTL is
0), and `Get(k)` at any instant before that deadline returns `(u, true)`, for every `v`. -/
theorem Set_present_keeps_value (fuel pick : Nat) (now : Int) (tb : Table K V)
    (key : Option K) (v u : Option V) (option : List SetOption) (e : Nat)
    (hk : mpGet tb.mp key = some e) (hc : (tb.store e).closed = false)
    (hu : (tb.store e).data = u) :
    ∃ tb', Table.Set fuel pick now tb key v option = some tb' ∧
      mpGet tb'.mp key = some e ∧ (tb'.store e).data = u ∧
      (tb'.store e).liveTime = (if tb.setDuration option ≠ 0
        then some (now + tb.setDuration option) else none) ∧
      ∀ t, (tb.setDuration option = 0 ∨ t < now + tb.setDuration option) →
        (tb'.Get t key).2 = (u, true) := by
  refine ⟨_, Set_present hk fuel pick now v option, hk, ?_, ?_, ?_⟩
  · simp only [Table.moveToEnd, setAt_same, KeepLive_data, hu]
  · simp only [Table.moveToEnd, setAt_same]
    simp only [container.KeepLive, container.GetSeq, hc]
    split_ifs <;> simp_all
  · intro t ht
    have hk' : mpGet (Table.moveToEnd { tb with store := (setAt tb.store e
        ((tb.store e).KeepLive (tb.setDuration option) (tb.store e).GetSeq now).1) } e).mp key
        = some e := hk
    rw [Get_present hk']
    simp only [Table.moveToEnd, setAt_same]
    rw [GetData_live, KeepLive_data, hu]
    · rw [KeepLive_closed, hc]
    · intro t' ht'
      simp only [container.KeepLive, container.GetSeq, hc] at ht'
      split_ifs at ht' <;> simp_all

/-- Witness for C2 at the table `exOne`, where key 1 holds 10: after `Set(1, 20)` a `Get(1)`
still returns `(10, true)`. -/
theorem Set_present_keeps_value_witness :
    ∃ tb', Table.Set 1 0 0 exOne (some 1) (some 20) [] = some tb' ∧
      mpGet tb'.mp (some 1) = some 0 ∧ (tb'.store 0).data = some 10 ∧
      (tb'.store 0).liveTime = (if exOne.setDuration [] ≠ 0
        then some (0 + exOne.setDuration []) else none) ∧
      ∀ t, (exOne.setDuration [] = 0 ∨ t < 0 + exOne.setDuration []) →
        (tb'.Get t (some 1)).2 = (some 10, true) :=
  Set_present_keeps_value 1 0 0 exOne (some 1) (some 20) (some 10) [] 0
    (by decide) (by decide) (by decide)

/-- C3, evaluated at the failing input: in `exOne` key 1 is present with value 10. `Update` on
its container would make the call `(1, 20, 10, false)`, but `Set(1, 20)` does not reach it: the
record of exchanger calls is left as it was. -/
theorem Set_present_skips_exchanger :
    mpGet exOne.mp (some 1) = some 0 ∧ (exOne.store 0).data = some 10 ∧
    (exOne.store 0).Update (some 20) (exOne.store 0).GetSeq =
      ([{ key := some 1, new := some 20, eld := some 10, release := false }], true) ∧
    (Table.Set 1 0 0 exOne (some 1) (some 20) []).map (fun t => t.calls) = some exOne.calls ∧
    (Table.Set 1 0 0 exOne (some 1) (some 20) []).map (fun t => t.calls) ≠
      some (exOne.calls ++
        [{ key := some 1, new := some 20, eld := some 10, release := false }]) := by
  decide

/-- C4, evaluated at the failing input: `Set(1, 10)` on the empty table `exEmpty` invokes the
exchanger once, with `(1, 10, 10, false)`: the old value passed is the value just stored, not
`nil`. -/
theorem Set_absent_old_value :
    mpGet exEmpty.mp (some 1) = none ∧ exEmpty.calls = [] ∧
    (Table.Set 1 0 0 exEmpty (some 1) (some 10) []).map (fun t => t.calls) =
      some [{ key := some 1, new := some 10, eld := some 10, release := false }] ∧
    (Table.Set 1 0 0 exEmpty (some 1) (some 10) []).map (fun t => t.calls) ≠
      some (exEmpty.calls ++
        [{ key := some 1, new := some 10, eld := none, release := false }]) := by
  decide

/-- C5, evaluated at the failing input: `Fetch(1, 10)` on the empty table `exEmpty` inserts the
key and returns `(10, false)` without any exchanger call, so the call `(1, 10, nil, false)` is not
made, while `Set(1, 10)` on the same table, which inserts through the same `load`, does call the
exchanger; and a `Delete(1)` after the `Fetch` reports the release of an entry whose insertion
was never reported. -/
theorem Fetch_absent_skips_exchanger :
    mpGet exEmpty.mp (some 1) = none ∧
    (Table.Fetch 1 0 0 (fun _ => 0) exEmpty (some 1) (some 10)).map
      (fun r => (r.2, mpGet r.1.mp (some 1), r.1.calls)) =
        some ((some 10, false), some 0, []) ∧
    (Table.Fetch 1 0 0 (fun _ => 0) exEmpty (some 1) (some 10)).map (fun r => r.1.calls) ≠
      some (exEmpty.calls ++
        [{ key := some 1, new := some 10, eld := none, release := false }]) ∧
    (Table.Set 1 0 0 exEmpty (some 1) (some 10) []).map (fun t => t.calls.length) = some 1 ∧
    (Table.Fetch 1 0 0 (fun _ => 0) exEmpty (some 1) (some 10)).map
      (fun r => (r.1.Delete (some 1)).1.calls) =
        some [{ key := some 1, new := none, eld := some 10, release := true }] := by
  decide

/-- C6, evaluated at the failing input: in `exStale` (`keepLiveDuration = 0`, `maxEntry = 0`,
a released container with the past deadline 10 in the pool), `Fetch(2, 20)` at instant 30
returns `(20, false)` and inserts the key, and the `Get(2)` that follows at instant 31 returns
`(nil, false)`. -/
theorem Fetch_Get_stale_deadline :
    0 ≤ exStale.keepLiveDuration ∧ 0 ≤ exStale.maxEntry ∧ mpGet exStale.mp (some 2) = none ∧
    (Table.Fetch 1 0 30 (fun _ => 30) exStale (some 2) (some 20)).map
      (fun r => (r.2, mpGet r.1.mp (some 2), (r.1.Get 31 (some 2)).2)) =
        some ((some 20, false), some 1, (none, false)) := by
  decide

/-- C7: `Get(k)` at instant `now` returns `(nil, false)` when `k` is absent. When `k` is present
it reports found exactly when the container is not closed and not expired (expired: it has a
deadline and the deadline is not after `now`), returning the stored value then and
`(nil, false)` otherwise. `Get` invokes no exchanger and changes neither the key index, nor any
container, nor the members of the recency list, nor what `Keys` returns. -/
theorem Get_contract (tb : Table K V) (now : Int) (key : Option K) :
    (mpGet tb.mp key = none → (tb.Get now key).2 = (none, false)) ∧
    (∀ e, mpGet tb.mp key = some e →
      ((tb.Get now key).2.2 = true ↔
        ((tb.store e).closed = false ∧ ¬ ∃ t, (tb.store e).liveTime = some t ∧ t ≤ now)) ∧
      (((tb.store e).closed = false ∧ ¬ ∃ t, (tb.store e).liveTime = some t ∧ t ≤ now) →
        (tb.Get now key).2 = ((tb.store e).data, true)) ∧
      (¬ ((tb.store e).closed = false ∧ ¬ ∃ t, (tb.store e).liveTime = some t ∧ t ≤ now) →
        (tb.Get now key).2 = (none, false))) ∧
    (tb.Get now key).1.calls = tb.calls ∧ (tb.Get now key).1.mp = tb.mp ∧
    (tb.Get now key).1.store = tb.store ∧ (∀ e, e ∈ (tb.Get now key).1.ll ↔ e ∈ tb.ll) ∧
    ∀ t, (tb.Get now key).1.Keys t = tb.Keys t := by
  refine ⟨?_, ?_, ?_⟩
  · intro hk
    unfold Table.Get
    rw [hk]
  · intro e hk
    rw [Get_present hk]
    simp only [Table.moveToEnd]
    generalize tb.store e = c
    obtain ⟨ck, cl, ct, cd, cc, cs⟩ := c
    simp only [container.GetData, container.isTimeout]
    cases cl with
    | none => cases cc <;> simp
    | some t => cases cc <;> by_cases hlt : now < t <;> simp [hlt]
  · cases hk : mpGet tb.mp key with
    | none =>
      have : tb.Get now key = (tb, none, false) := by
        unfold Table.Get
        rw [hk]
      rw [this]
      exact ⟨rfl, rfl, rfl, fun _ => Iff.rfl, fun _ => rfl⟩
    | some e =>
      rw [Get_present hk]
      exact ⟨rfl, rfl, rfl, fun _ => mem_MoveToBack, fun _ => rfl⟩

/-- Witness for C7 at the table `exOne`, where key 1 holds 10 without a deadline: `Get(1)`
returns `(10, true)`. -/
theorem Get_contract_witness : (exOne.Get 5 (some 1)).2 = (some 10, true) :=
  ((Get_contract exOne 5 (some 1)).2.1 0 (by decide)).2.1
    ⟨by decide, fun h => by
      obtain ⟨t, ht, _⟩ := h
      have hn : (exOne.store 0).liveTime = none := by decide
      rw [hn] at ht
      cases ht⟩

/-- C8: in a well-formed table `Delete(k)` returns true exactly when `k` is present. When `k` is
present under element `e`, the exchanger is invoked once, with
`(key = k, new = nil, old = the stored value, release = true)`, `k` is gone from the key index
and `e` from the recency list while every other key is indexed as before, a following `Get(k)`
returns `(nil, false)` and changes nothing, and a second `Delete(k)` returns false and changes
nothing. When `k` is absent, `Delete(k)` returns false and the table and the record of
exchanger calls are unchanged. -/
theorem Delete_contract (tb : Table K V) (hi : tb.Inv) (key : Option K) :
    ((tb.Delete key).2 = true ↔ mpGet tb.mp key ≠ none) ∧
    (∀ e, mpGet tb.mp key = some e →
      (tb.Delete key).1.calls = tb.calls ++
        [{ key := key, new := none, eld := (tb.store e).data, release := true }] ∧
      mpGet (tb.Delete key).1.mp key = none ∧ e ∉ (tb.Delete key).1.ll ∧
      (∀ k', k' ≠ key → mpGet (tb.Delete key).1.mp k' = mpGet tb.mp k') ∧
      (∀ now, (tb.Delete key).1.Get now key = ((tb.Delete key).1, none, false)) ∧
      (tb.Delete key).1.Delete key = ((tb.Delete key).1, false)) ∧
    ((tb.Delete key).2 = false → tb.Delete key = (tb, false)) := by
  cases hk : mpGet tb.mp key with
  | none =>
    rw [Delete_absent hk]
    exact ⟨by simp, fun e he => (by cases he), fun _ => rfl⟩
  | some e =>
    have hD := Delete_present hi hk
    have hgone : mpGet (tb.Delete key).1.mp key = none := by
      rw [hD]
      exact mpGet_mpDelete_self _ _
    refine ⟨by rw [hD]; simp, ?_, by rw [hD]; simp⟩
    intro e' he'
    cases he'
    refine ⟨by rw [hD], hgone, ?_, ?_, fun now => Get_absent hgone now, Delete_absent hgone⟩
    · rw [hD]
      exact List.Nodup.not_mem_erase hi.1
    · intro k' hk'
      rw [hD]
      exact mpGet_mpDelete_ne hk'

/-- Witness for C8 at the table `exOne`, where key 1 holds 10: `Delete(1)` returns true and
reports the release of 10. -/
theorem Delete_contract_witness :
    (exOne.Delete (some 1)).2 = true ∧
    (exOne.Delete (some 1)).1.calls = exOne.calls ++
      [{ key := some 1, new := none, eld := (exOne.store 0).data, release := true }] :=
  ⟨(Delete_contract exOne (by decide) (some 1)).1.2 (by decide),
    ((Delete_contract exOne (by decide) (some 1)).2.1 0 (by decide)).1⟩

/-- C9: let a table built with `maxEntry = n > 0` hold `n` keys after the operations `ops`, and
let `k` be absent. Then there is a present key `victim` whose last access (the last `Get`,
`Fetch`, `Set` or `KeepLive` on it in `ops`, its insertion included) is older than that of every
other present key, and inserting `k`, by `Set` or by `Fetch`, returns, leaves exactly the keys
that were present other than `victim` together with `k`, and adds exactly one release to the
exchanger calls, the release of `victim` with its stored value. -/
theorem lru_eviction (n ttl : Int) (pool : List (container K V)) (fuel : Nat)
    (ops : List (Op K V)) (tb : Table K V) (hn : 0 < n)
    (hrun : (NewTable n ttl pool).run fuel ops = some tb)
    (hfull : (tb.mp.length : Int) = n) (k : Option K) (hk : mpGet tb.mp k = none) :
    ∃ victim e0, mpGet tb.mp victim = some e0 ∧
      (∀ x, mpGet tb.mp x ≠ none → x ≠ victim → lastAccess ops victim < lastAccess ops x) ∧
      (∀ (pick : Nat) (now : Int) (v : Option V) (option : List SetOption) (fuel' : Nat),
        2 ≤ fuel' → ∃ tb', Table.Set fuel' pick now tb k v option = some tb' ∧
          (∀ x, mpGet tb'.mp x ≠ none ↔ (x = k ∨ (mpGet tb.mp x ≠ none ∧ x ≠ victim))) ∧
          releases tb'.calls = releases tb.calls ++
            [{ key := victim, new := none, eld := (tb.store e0).data, release := true }]) ∧
      (∀ (pick : Nat) (now : Int) (clk : Nat → Int) (d : Option V) (fuel' : Nat),
        2 ≤ fuel' → ∃ tb', Table.Fetch fuel' pick now clk tb k d = some (tb', d, false) ∧
          (∀ x, mpGet tb'.mp x ≠ none ↔ (x = k ∨ (mpGet tb.mp x ≠ none ∧ x ≠ victim))) ∧
          releases tb'.calls = releases tb.calls ++
            [{ key := victim, new := none, eld := (tb.store e0).data, release := true }]) := by
  have hi : tb.Inv := run_inv hrun (NewTable_inv n ttl pool)
  have hmax : tb.maxEntry = n := (run_bounded hrun).1.trans (NewTable_bounded n ttl pool).1
  have hs : tb.SortedBy (lastAccess ops) := run_sorted n ttl pool hrun
  have hlen : (tb.ll.length : Int) = tb.maxEntry := by
    rw [← Inv.length_mp hi, hfull, hmax]
  have hpos : 0 < tb.maxEntry := by rw [hmax]; exact hn
  -- the element at the front of the recency list
  cases hl : tb.ll with
  | nil =>
    rw [hl] at hlen
    simp only [List.length_nil, Nat.cast_zero] at hlen
    omega
  | cons e0 rest =>
    have he0 : e0 ∈ tb.ll := by rw [hl]; simp
    have hv : mpGet tb.mp (tb.store e0).key = some e0 :=
      mpGet_of_mem hi.2.1 (hi.2.2.2 e0 he0).1
    have hkv : k ≠ (tb.store e0).key := by
      intro hEq
      rw [← hEq, hk] at hv
      cases hv
    -- the keys after the insertion
    have hkeys : ∀ x, mpGet (mpDelete (mpSet tb.mp k tb.fresh) (tb.store e0).key) x ≠ none ↔
        (x = k ∨ (mpGet tb.mp x ≠ none ∧ x ≠ (tb.store e0).key)) := by
      intro x
      by_cases hxv : x = (tb.store e0).key
      · subst hxv
        rw [mpGet_mpDelete_self]
        constructor
        · intro h; exact absurd rfl h
        · rintro (h | h)
          · exact absurd h.symm hkv
          · exact absurd rfl h.2
      · rw [mpGet_mpDelete_ne hxv]
        by_cases hxk : x = k
        · subst hxk
          rw [mpGet_mpSet_self]
          simp
        · rw [mpGet_mpSet_ne _ hxk]
          simp [hxk, hxv]
    refine ⟨(tb.store e0).key, e0, hv, ?_, ?_, ?_⟩
    · intro x hx hxv
      cases hxe : mpGet tb.mp x with
      | none => exact absurd hxe hx
      | some ex =>
        have hm : ex ∈ tb.ll ∧ (tb.store ex).key = x := hi.2.2.1 _ (mem_of_mpGet hxe)
        have hne : ex ≠ e0 := by
          intro hEq
          apply hxv
          rw [← hm.2, hEq]
        have hin : ex ∈ rest := by
          have := hm.1
          rw [hl, List.mem_cons] at this
          exact this.resolve_left hne
        have hp := hs
        unfold Table.SortedBy at hp
        rw [hl, List.pairwise_cons] at hp
        have := hp.1 ex hin
        rw [hm.2] at this
        exact this
    · intro pick now v option fuel' hf
      obtain ⟨tb1, e1, h1, h2, h3, h4, a1, a2, a3⟩ :=
        add_full hi hpos hlen hf pick now k v (tb.setDuration option)
      rw [hl] at h1
      cases h1
      refine ⟨{ tb1 with calls := tb1.calls ++
        ((tb1.store tb.fresh).Update v (tb1.store tb.fresh).GetSeq).1 }, ?_, ?_, ?_⟩
      · unfold Table.Set
        simp only []
        rw [load_absent hk, h2]
        rfl
      · intro x
        simp only [h3]
        exact hkeys x
      · simp only [container.Update, container.GetSeq, a1, a2, a3, h4]
        simp [releases]
    · intro pick now clk d fuel' hf
      obtain ⟨tb1, e1, h1, h2, h3, h4, _, _, _⟩ :=
        add_full hi hpos hlen hf pick (clk 0) k d tb.keepLiveDuration
      rw [hl] at h1
      cases h1
      refine ⟨tb1, ?_, ?_, ?_⟩
      · obtain ⟨m, rfl⟩ : ∃ m, fuel' = m + 1 := ⟨fuel' - 1, by omega⟩
        unfold Table.Fetch Table.FetchLoop
        rw [load_absent hk, h2]
        rfl
      · intro x
        rw [h3]
        exact hkeys x
      · rw [h4]
        simp [releases]

/-- Witness for C9, the scenario S1: on a table with `maxEntry = 3` insert 1, 2, 3 and `Get(1)`;
then inserting 4 evicts a least recently accessed key, and running the code shows it is key 2:
the keys left are 1, 3 and 4 and the only release reported is that of key 2. -/
theorem lru_eviction_witness :
    (∃ victim e0, mpGet exThree.mp victim = some e0 ∧
      (∀ x, mpGet exThree.mp x ≠ none → x ≠ victim →
        lastAccess exThreeOps victim < lastAccess exThreeOps x) ∧
      (∀ (pick : Nat) (now : Int) (v : Option Nat) (option : List SetOption) (fuel' : Nat),
        2 ≤ fuel' → ∃ tb', Table.Set fuel' pick now exThree (some 4) v option = some tb' ∧
          (∀ x, mpGet tb'.mp x ≠ none ↔
            (x = some 4 ∨ (mpGet exThree.mp x ≠ none ∧ x ≠ victim))) ∧
          releases tb'.calls = releases exThree.calls ++
            [{ key := victim, new := none, eld := (exThree.store e0).data,
               release := true }]) ∧
      (∀ (pick : Nat) (now : Int) (clk : Nat → Int) (d : Option Nat) (fuel' : Nat),
        2 ≤ fuel' → ∃ tb', Table.Fetch fuel' pick now clk exThree (some 4) d =
            some (tb', d, false) ∧
          (∀ x, mpGet tb'.mp x ≠ none ↔
            (x = some 4 ∨ (mpGet exThree.mp x ≠ none ∧ x ≠ victim))) ∧
          releases tb'.calls = releases exThree.calls ++
            [{ key := victim, new := none, eld := (exThree.store e0).data,
               release := true }])) ∧
    (Table.Set 2 0 0 exThree (some 4) (some 4) []).map
      (fun t => (t.Keys 0, releases t.calls)) =
        some ([some 1, some 3, some 4],
          [{ key := some 2, new := none, eld := some 2, release := true }]) :=
  ⟨lru_eviction 3 0 [] 2 exThreeOps exThree (by decide) (getD_of_isSome (by decide))
    (by decide) (some 4) (by decide), by decide⟩

/-- C10: a table built with `maxEntry = n > 0` holds at most `n` entries after every operation
of every finite sequence of operations (`Get`, `Fetch`, `Set`, `KeepLive`, `Delete`, `Keys`,
`Clear` and timer-driven `deleteBySeq`): whenever the sequence `ops` runs to completion, the
table after each of its initial segments has at most `n` elements in the recency list and at
most `n` keys in the key index. -/
theorem size_bound (n keepLiveDuration : Int) (pool : List (container K V)) (fuel : Nat)
    (ops : List (Op K V)) (tb : Table K V) (hn : 0 < n)
    (h : (NewTable n keepLiveDuration pool).run fuel ops = some tb) :
    ∀ pre, pre <+: ops → ∃ t, (NewTable n keepLiveDuration pool).run fuel pre = some t ∧
      (t.ll.length : Int) ≤ n ∧ (t.mp.length : Int) ≤ n := by
  intro pre hpre
  obtain ⟨post, rfl⟩ := hpre
  rw [run_append] at h
  cases hr : (NewTable n keepLiveDuration pool).run fuel pre with
  | none => rw [hr] at h; cases h
  | some t =>
    refine ⟨t, rfl, ?_⟩
    have hinv := run_inv hr (NewTable_inv n keepLiveDuration pool)
    obtain ⟨hm, hb⟩ := run_bounded hr
    have hmax : t.maxEntry = n := hm.trans (NewTable_bounded n keepLiveDuration pool).1
    have hbd := hb (NewTable_bounded n keepLiveDuration pool).2
    have hlen := hbd (by rw [hmax]; exact hn)
    rw [hmax] at hlen
    rw [Inv.length_mp hinv]
    exact ⟨hlen, hlen⟩

/-- Witness for C10 on a table with `maxEntry = 3`: after the scenario S1 and the insertion of
a fourth key the table holds at most 3 entries. -/
theorem size_bound_witness :
    ∃ t, (NewTable 3 0 ([] : List (container Nat Nat))).run 2
        (exThreeOps ++ [.Set 0 0 (some 4) (some 4) []]) = some t ∧
      (t.ll.length : Int) ≤ 3 ∧ (t.mp.length : Int) ≤ 3 :=
  (Option.isSome_iff_exists.1 (by decide :
    ((NewTable 3 0 ([] : List (container Nat Nat))).run 2
      (exThreeOps ++ [.Set 0 0 (some 4) (some 4) []])).isSome = true)).elim
    (fun tb h => size_bound 3 0 [] 2 _ tb (by decide) h _ List.prefix_rfl)

/-- C11: the key index and the recency list agree after `NewTable` and after every operation.
Whenever the sequence `ops` runs to completion on a new table, the table after each of its
initial segments has no element twice in the recency list and no key twice in the key index,
the key index maps `k` to `e` exactly when `e` is in the list and its container carries `k` (so
the list holds no element the index does not know), and `k` is in the key index exactly when
one and only one listed element carries `k`. -/
theorem index_agreement (maxEntry keepLiveDuration : Int) (pool : List (container K V))
    (fuel : Nat) (ops : List (Op K V)) (tb : Table K V)
    (h : (NewTable maxEntry keepLiveDuration pool).run fuel ops = some tb) :
    ∀ pre, pre <+: ops →
      ∃ t, (NewTable maxEntry keepLiveDuration pool).run fuel pre = some t ∧
        t.ll.Nodup ∧ (t.mp.map Prod.fst).Nodup ∧
        (∀ k e, mpGet t.mp k = some e ↔ (e ∈ t.ll ∧ (t.store e).key = k)) ∧
        (∀ k, mpGet t.mp k ≠ none ↔ ∃! e, e ∈ t.ll ∧ (t.store e).key = k) := by
  intro pre hpre
  obtain ⟨post, rfl⟩ := hpre
  rw [run_append] at h
  cases hr : (NewTable maxEntry keepLiveDuration pool).run fuel pre with
  | none => rw [hr] at h; cases h
  | some t =>
    have hi := run_inv hr (NewTable_inv maxEntry keepLiveDuration pool)
    refine ⟨t, rfl, hi.1, hi.2.1, Inv.mpGet_iff hi, ?_⟩
    intro k
    constructor
    · intro hk
      cases hg : mpGet t.mp k with
      | none => exact absurd hg hk
      | some e =>
        refine ⟨e, (Inv.mpGet_iff hi k e).1 hg, ?_⟩
        intro e' he'
        have := (Inv.mpGet_iff hi k e').2 he'
        rw [hg] at this
        exact (Option.some.inj this).symm
    · rintro ⟨e, he, _⟩
      rw [(Inv.mpGet_iff hi k e).2 he]
      simp

/-- Witness for C11: after the scenario S1 and the insertion of a fourth key, which evicts,
the two indexes agree. -/
theorem index_agreement_witness :
    ∃ t, (NewTable 3 0 ([] : List (container Nat Nat))).run 2
        (exThreeOps ++ [.Set 0 0 (some 4) (some 4) []]) = some t ∧
      t.ll.Nodup ∧ (t.mp.map Prod.fst).Nodup ∧
      (∀ k e, mpGet t.mp k = some e ↔ (e ∈ t.ll ∧ (t.store e).key = k)) ∧
      (∀ k, mpGet t.mp k ≠ none ↔ ∃! e, e ∈ t.ll ∧ (t.store e).key = k) :=
  (Option.isSome_iff_exists.1 (by decide :
    ((NewTable 3 0 ([] : List (container Nat Nat))).run 2
      (exThreeOps ++ [.Set 0 0 (some 4) (some 4) []])).isSome = true)).elim
    (fun tb h => index_agreement 3 0 [] 2 _ tb h _ List.prefix_rfl)

/-- C12: in a well-formed table holding `n` entries, `Clear()` invokes the exchanger exactly `n`
times, once per entry, in the order of the recency list, with
`(key, new = nil, old = the stored value, release = true)`, and leaves both indexes empty:
afterwards `Keys()` is empty, `Get` of every key returns `(nil, false)`, and `deleteBySeq` for any
key and `seq` returns false and changes nothing. -/
theorem Clear_contract (tb : Table K V) (hi : tb.Inv) :
    tb.Clear.calls = tb.calls ++ tb.ll.map (fun e =>
      { key := (tb.store e).key, new := none, eld := (tb.store e).data, release := true }) ∧
    (tb.Clear.calls.length = tb.calls.length + tb.mp.length) ∧
    (∀ k e, mpGet tb.mp k = some e →
      ({ key := k, new := none, eld := (tb.store e).data, release := true } : Event K V) ∈
        tb.Clear.calls.drop tb.calls.length) ∧
    tb.Clear.mp = [] ∧ tb.Clear.ll = [] ∧ (∀ now, tb.Clear.Keys now = []) ∧
    (∀ now k, tb.Clear.Get now k = (tb.Clear, none, false)) ∧
    (∀ k g, tb.Clear.deleteBySeq k g = (tb.Clear, false)) := by
  obtain ⟨f1, f2, _⟩ := Clear_fields tb
  have hnone : ∀ k, mpGet tb.Clear.mp k = none := by
    intro k
    rw [f2]
    rfl
  refine ⟨(Clear_calls hi).1, ?_, ?_, f2, f1, ?_, ?_, ?_⟩
  · rw [(Clear_calls hi).1, List.length_append, List.length_map, Inv.length_mp hi]
  · intro k e hk
    have hm := (Inv.mpGet_iff hi k e).1 hk
    rw [(Clear_calls hi).1, List.drop_left]
    refine List.mem_map.2 ⟨e, hm.1, ?_⟩
    rw [hm.2]
  · intro now
    unfold Table.Keys
    rw [f2]
    rfl
  · exact fun now k => Get_absent (hnone k) now
  · exact fun k g => deleteBySeq_absent (hnone k) g

/-- Witness for C12 at the table `exThree`, which holds the keys 1, 2, 3 with key 1 accessed
last: `Clear()` reports three releases, of the keys 2, 3 and 1. -/
theorem Clear_contract_witness :
    exThree.Clear.calls = exThree.calls ++ exThree.ll.map (fun e =>
      { key := (exThree.store e).key, new := none, eld := (exThree.store e).data,
        release := true }) ∧
    exThree.Clear.calls.length = exThree.calls.length + 3 ∧ exThree.Clear.mp = [] :=
  ⟨(Clear_contract exThree (by decide)).1, by decide, by decide⟩

/-- C13: in a well-formed table, `KeepLive(k, options...)` at instant `t0` on a present key
invokes no exchanger, leaves the key index, the members of the recency list and every stored
value as they were, sets the deadline of the container of `k` to `t0 + d` for the effective TTL
`d` (no deadline when `d = 0`), and a following `Get(k)` at instant `t` returns the stored value
with found = true whenever `d = 0` or `t` is before `t0 + d`. -/
theorem KeepLive_contract (tb : Table K V) (hi : tb.Inv) (t0 : Int) (key : Option K)
    (option : List KeepLiveOption) (e : Nat) (hk : mpGet tb.mp key = some e) :
    (tb.KeepLive t0 key option).1.calls = tb.calls ∧
    (tb.KeepLive t0 key option).1.mp = tb.mp ∧
    (∀ x, x ∈ (tb.KeepLive t0 key option).1.ll ↔ x ∈ tb.ll) ∧
    (∀ j, ((tb.KeepLive t0 key option).1.store j).data = (tb.store j).data) ∧
    ((tb.KeepLive t0 key option).1.store e).liveTime =
      (if tb.keepLiveOf option ≠ 0 then some (t0 + tb.keepLiveOf option) else none) ∧
    ∀ t, (tb.keepLiveOf option = 0 ∨ t < t0 + tb.keepLiveOf option) →
      ((tb.KeepLive t0 key option).1.Get t key).2 = ((tb.store e).data, true) := by
  have hm := hi.2.2.1 _ (mem_of_mpGet hk)
  have hc : (tb.store e).closed = false := (hi.2.2.2 e hm.1).2.1
  rw [KeepLive_present hk]
  refine ⟨rfl, rfl, fun _ => mem_MoveToBack, ?_, ?_, ?_⟩
  · intro j
    by_cases hj : j = e
    · subst hj
      simp only [setAt_same, KeepLive_data]
    · simp only [setAt_other _ _ hj]
  · simp only [setAt_same]
    simp only [container.KeepLive, container.GetSeq, hc]
    split_ifs <;> simp_all
  · intro t ht
    have hk' : mpGet ({ tb.moveToEnd e with store := (setAt tb.store e
        ((tb.store e).KeepLive (tb.keepLiveOf option) (tb.store e).GetSeq t0).1) } :
          Table K V).mp key = some e := hk
    rw [Get_present hk']
    simp only [Table.moveToEnd, setAt_same]
    rw [GetData_live, KeepLive_data]
    · rw [KeepLive_closed, hc]
    · intro t' ht'
      simp only [container.KeepLive, container.GetSeq, hc] at ht'
      split_ifs at ht' <;> simp_all

/-- Witness for C13 at the table `exOne`, where key 1 holds 10: after `KeepLive(1)` with a
duration of 100 at instant 0, `Get(1)` at instant 50 returns `(10, true)`. -/
theorem KeepLive_contract_witness :
    ((exOne.KeepLive 0 (some 1) [{ Duration := some 100 }]).1.Get 50 (some 1)).2 =
      ((exOne.store 0).data, true) :=
  (KeepLive_contract exOne (by decide) 0 (some 1) [{ Duration := some 100 }] 0
    (by decide)).2.2.2.2.2 50 (Or.inr (by decide))

/-- C14: within one table the generations are strictly increasing in allocation order. After
any sequence of operations on a new table with fewer than `2 ^ 64` insertions (`tb.fresh` counts
them, and `tb.store e` is the container of the `e`-th one): the counter equals the number of
insertions, a container allocated earlier has a smaller `seq` than one allocated later, any two
containers ever allocated have different `seq`, the container the next insertion allocates gets
a `seq` greater than every one handed out before (so also than that of a released entry of the
same key), and `Clear` resets neither the counter nor the generations. -/
theorem seq_increasing (maxEntry keepLiveDuration : Int) (pool : List (container K V))
    (fuel : Nat) (ops : List (Op K V)) (tb : Table K V)
    (h : (NewTable maxEntry keepLiveDuration pool).run fuel ops = some tb)
    (hlt : tb.fresh < 2 ^ 64) :
    tb.seq = tb.fresh ∧
    (∀ i j, i < j → j < tb.fresh → (tb.store i).seq < (tb.store j).seq) ∧
    (∀ i j, i < tb.fresh → j < tb.fresh → i ≠ j → (tb.store i).seq ≠ (tb.store j).seq) ∧
    (∀ pick key data, tb.fresh + 1 < 2 ^ 64 → ∀ i, i < tb.fresh →
      (tb.store i).seq < (tb.newContainer pick key data).2.seq) ∧
    tb.Clear.seq = tb.seq ∧ ∀ e, (tb.Clear.store e).seq = (tb.store e).seq := by
  have hs : tb.SeqInv := run_seqInv h (NewTable_seqInv maxEntry keepLiveDuration pool)
  have hseq : ∀ e, e < tb.fresh → (tb.store e).seq = e + 1 := by
    intro e he
    rw [hs.2 e he]
    exact Nat.mod_eq_of_lt (by omega)
  have hcl := Clear_seqFrame tb
  refine ⟨by rw [hs.1]; exact Nat.mod_eq_of_lt hlt, ?_, ?_, ?_, hcl.1, hcl.2.2⟩
  · intro i j hij hj
    rw [hseq i (by omega), hseq j hj]
    omega
  · intro i j hi hj hij
    rw [hseq i hi, hseq j hj]
    omega
  · intro pick key data hnext i hi
    rw [(newContainer_fields tb pick key data).2.2.2.1, hs.1, hseq i hi,
      Nat.mod_eq_of_lt hlt, Nat.mod_eq_of_lt hnext]
    omega

/-- Witness for C14 at the table `exThree`, reached by the scenario S1 with three
insertions. -/
theorem seq_increasing_witness :
    exThree.seq = exThree.fresh ∧
    (∀ i j, i < j → j < exThree.fresh → (exThree.store i).seq < (exThree.store j).seq) ∧
    (∀ i j, i < exThree.fresh → j < exThree.fresh → i ≠ j →
      (exThree.store i).seq ≠ (exThree.store j).seq) ∧
    (∀ pick key data, exThree.fresh + 1 < 2 ^ 64 → ∀ i, i < exThree.fresh →
      (exThree.store i).seq < (exThree.newContainer pick key data).2.seq) ∧
    exThree.Clear.seq = exThree.seq ∧
    ∀ e, (exThree.Clear.store e).seq = (exThree.store e).seq :=
  seq_increasing 3 0 [] 2 exThreeOps exThree (getD_of_isSome (by decide)) (by decide)

/-- C15, evaluated at the failing input: on `exNeg`, a new table with `maxEntry = -1`,
`Fetch(1, 10)` never returns, whatever the fuel: its first pass enters `add`, whose eviction
loop does not exit. -/
theorem Fetch_negative_maxEntry :
    ∀ fuel, Table.Fetch fuel 0 0 (fun _ => 0) exNeg (some 1) (some 10) = none := by
  intro fuel
  cases fuel with
  | zero => rfl
  | succ n =>
    unfold Table.Fetch Table.FetchLoop
    rw [load_absent (by decide), add_never (by decide)]
    rfl

/-- C16, evaluated at the failing input: in `exThree`, where key 2 is present at the front of
the recency list, `KeepLive(2)` moves its element to the back, so it mutates the list, and it
does so holding the read lock only; `Get(2)` makes the same move under the write lock. -/
theorem KeepLive_moves_under_read_lock :
    exThree.ll = [1, 2, 0] ∧ (exThree.KeepLive 0 (some 2) []).1.ll = [2, 0, 1] ∧
    exThree.KeepLiveEvents (some 2) = [.RLock, .MoveToBack, .RUnlock] ∧
    guarded (exThree.KeepLiveEvents (some 2)) = false ∧
    exThree.GetEvents (some 2) = [.Lock, .MoveToBack, .Unlock] ∧
    guarded (exThree.GetEvents (some 2)) = true := by
  decide

/-- C17, evaluated at the failing input: the pool of `exStale` holds a released container whose
deadline is the past instant 10. `newContainer` gives it the new key, value and `seq` and
reopens it, but leaves the deadline 10 in place. So after `Set(2, 20)` with the effective TTL 0
at instant 30 the entry is reported expired: `Get(2)` at instant 31 returns `(nil, false)` and
`Keys()` omits key 2, although the key index holds it. -/
theorem newContainer_keeps_deadline :
    (exStale.pool.map (fun c => (c.liveTime, c.closed))) = [(some 10, true)] ∧
    (exStale.newContainer 0 (some 2) (some 20)).2 =
      { key := some 2, liveTime := some 10,
        timer := some { fireAt := 10, seq := 1, active := false },
        data := some 20, closed := false, seq := 2 } ∧
    exStale.setDuration [] = 0 ∧
    (Table.Set 1 0 30 exStale (some 2) (some 20) []).map
      (fun t => (mpGet t.mp (some 2), (t.Get 31 (some 2)).2, t.Keys 31)) =
        some (some 1, (none, false), []) := by
  decide

/-- C18: in a well-formed table `deleteBySeq(k, g)` returns true exactly when `k` is present and
the container under `k` has `seq = g`. In that case the exchanger is told once of the release
of the stored value, `k` leaves the key index and its element the recency list, the container is
closed, and every other key is indexed as before. In every other case it returns false and
the table and the record of exchanger calls are unchanged. In particular, after `Delete(k)` a
late `deleteBySeq(k, g)` returns false and changes nothing, for every `g`. -/
theorem deleteBySeq_contract (tb : Table K V) (hi : tb.Inv) (key : Option K) (g : Nat) :
    ((tb.deleteBySeq key g).2 = true ↔ ∃ e, mpGet tb.mp key = some e ∧ (tb.store e).seq = g) ∧
    (∀ e, mpGet tb.mp key = some e → (tb.store e).seq = g →
      (tb.deleteBySeq key g).1.calls = tb.calls ++
        [{ key := key, new := none, eld := (tb.store e).data, release := true }] ∧
      mpGet (tb.deleteBySeq key g).1.mp key = none ∧ e ∉ (tb.deleteBySeq key g).1.ll ∧
      ((tb.deleteBySeq key g).1.store e).closed = true ∧
      (∀ k', k' ≠ key → mpGet (tb.deleteBySeq key g).1.mp k' = mpGet tb.mp k')) ∧
    ((tb.deleteBySeq key g).2 = false → tb.deleteBySeq key g = (tb, false)) ∧
    (∀ g', (tb.Delete key).1.deleteBySeq key g' = ((tb.Delete key).1, false)) := by
  have hlate : ∀ g', (tb.Delete key).1.deleteBySeq key g' = ((tb.Delete key).1, false) := by
    intro g'
    apply deleteBySeq_absent
    cases hk : mpGet tb.mp key with
    | none => rw [Delete_absent hk]; exact hk
    | some e =>
      rw [Delete_present hi hk]
      exact mpGet_mpDelete_self _ _
  cases hk : mpGet tb.mp key with
  | none =>
    rw [deleteBySeq_absent hk]
    exact ⟨by simp, fun e he => (by cases he), fun _ => rfl, hlate⟩
  | some e =>
    by_cases hs : (tb.store e).seq = g
    · subst hs
      have hD := deleteBySeq_present hi hk
      refine ⟨by rw [hD]; simp, ?_, by rw [hD]; simp, hlate⟩
      intro e' he' _
      cases he'
      rw [hD]
      refine ⟨rfl, mpGet_mpDelete_self _ _, List.Nodup.not_mem_erase hi.1, ?_,
        fun k' hk' => mpGet_mpDelete_ne hk'⟩
      simp only [setAt_same]
    · rw [deleteBySeq_stale hk hs]
      refine ⟨?_, ?_, fun _ => rfl, hlate⟩
      · constructor
        · intro h; cases h
        · rintro ⟨e', he', hg⟩
          cases he'
          exact absurd hg hs
      · intro e' he' hg
        cases he'
        exact absurd hg hs

/-- Witness for C18 at the table `exOne`, whose key 1 holds 10 in a container with `seq = 1`:
`deleteBySeq(1, 1)` returns true and reports the release of 10, and `deleteBySeq(1, 2)` changes
nothing. -/
theorem deleteBySeq_contract_witness :
    (exOne.deleteBySeq (some 1) 1).2 = true ∧
    (exOne.deleteBySeq (some 1) 1).1.calls = exOne.calls ++
      [{ key := some 1, new := none, eld := (exOne.store 0).data, release := true }] ∧
    exOne.deleteBySeq (some 1) 2 = (exOne, false) :=
  ⟨(deleteBySeq_contract exOne (by decide) (some 1) 1).1.2 ⟨0, by decide, by decide⟩,
    ((deleteBySeq_contract exOne (by decide) (some 1) 1).2.1 0 (by decide) (by decide)).1,
    (deleteBySeq_contract exOne (by decide) (some 1) 2).2.2.1 (by decide)⟩

/-- C19: closed is terminal. For a container with `closed = true` and every `seq` argument,
`Update`, `KeepLive`, `Release` and `release` return false, make no exchanger call and leave the
container as it is, and `GetData` returns `(nil, false)`. Consequently a container is released
at most once: after a `Release` that succeeded, a second `Release` with the same `seq` returns
false, makes no exchanger call and changes nothing. -/
theorem closed_terminal (c : container K V) (hc : c.closed = true) (seq : Nat)
    (v : Option V) (duration now : Int) :
    c.Update v seq = ([], false) ∧ c.KeepLive duration seq now = (c, false) ∧
    c.Release seq = (c, [], false) ∧ c.release seq = (c, [], false) ∧
    c.GetData now seq = (none, false) ∧
    ∀ (c0 : container K V) (s : Nat), (c0.Release s).2.2 = true →
      (c0.Release s).2.1.length = 1 ∧
      (c0.Release s).1.Release s = ((c0.Release s).1, [], false) := by
  refine ⟨?_, ?_, ?_, ?_, ?_, ?_⟩
  · simp [container.Update, hc]
  · simp [container.KeepLive, hc]
  · simp [container.Release, container.release, hc]
  · simp [container.release, hc]
  · simp only [container.GetData, hc]
    split_ifs <;> rfl
  · intro c0 s h
    simp only [container.Release, container.release] at h ⊢
    split_ifs at h ⊢ <;> simp_all

/-- Witness for C19 at the released container `exClosed`. -/
theorem closed_terminal_witness :
    exClosed.Update (some 20) 1 = ([], false) ∧ exClosed.KeepLive 5 1 30 = (exClosed, false) ∧
    exClosed.Release 1 = (exClosed, [], false) ∧ exClosed.release 1 = (exClosed, [], false) ∧
    exClosed.GetData 30 1 = (none, false) ∧
    ∀ (c0 : container Nat Nat) (s : Nat), (c0.Release s).2.2 = true →
      (c0.Release s).2.1.length = 1 ∧
      (c0.Release s).1.Release s = ((c0.Release s).1, [], false) :=
  closed_terminal exClosed (by decide) 1 (some 20) 5 30

/-- C20: the eviction loop of `add` exits exactly when `maxEntry >= 0`. With `maxEntry >= 0` and
`m` elements listed before the insertion, `add` returns having removed exactly
`max(0, m + 1 - maxEntry)` elements from the front of the recency list when `maxEntry > 0` and
none when `maxEntry = 0`, and with `maxEntry >= 1` the new element is not among them: it stays
at the back. With `maxEntry < 0`, `add` never returns. -/
theorem add_terminates_iff (tb : Table K V) (pick : Nat) (now : Int) (key : Option K)
    (data : Option V) (keepLive : Int) :
    ((∃ fuel r, Table.add fuel pick now tb key data keepLive = some r) ↔ 0 ≤ tb.maxEntry) ∧
    (0 ≤ tb.maxEntry → ∀ fuel, tb.ll.length + 1 < fuel →
      ∃ tb', Table.add fuel pick now tb key data keepLive = some (tb', tb.fresh) ∧
        tb'.ll = (tb.ll ++ [tb.fresh]).drop (if tb.maxEntry = 0 then 0
          else (max 0 ((tb.ll.length : Int) + 1 - tb.maxEntry)).toNat) ∧
        (1 ≤ tb.maxEntry → tb'.ll =
          tb.ll.drop (max 0 ((tb.ll.length : Int) + 1 - tb.maxEntry)).toNat ++ [tb.fresh])) ∧
    (tb.maxEntry < 0 → ∀ fuel, Table.add fuel pick now tb key data keepLive = none) := by
  have hpos : 0 ≤ tb.maxEntry → ∀ fuel, tb.ll.length + 1 < fuel →
      ∃ tb', Table.add fuel pick now tb key data keepLive = some (tb', tb.fresh) ∧
        tb'.ll = (tb.ll ++ [tb.fresh]).drop (if tb.maxEntry = 0 then 0
          else (max 0 ((tb.ll.length : Int) + 1 - tb.maxEntry)).toNat) ∧
        (1 ≤ tb.maxEntry → tb'.ll =
          tb.ll.drop (max 0 ((tb.ll.length : Int) + 1 - tb.maxEntry)).toNat ++
            [tb.fresh]) := by
    intro h0 fuel hf
    obtain ⟨tb', h1, h2⟩ := add_returns h0 hf pick now key data keepLive
    refine ⟨tb', h1, h2, fun h1' => ?_⟩
    have hz : tb.maxEntry ≠ 0 := by omega
    rw [h2, if_neg hz]
    exact List.drop_append_of_le_length (by omega)
  refine ⟨⟨?_, ?_⟩, hpos, fun h fuel => add_never h fuel pick now key data keepLive⟩
  · rintro ⟨fuel, r, hr⟩
    by_contra hneg
    rw [add_never (not_le.1 hneg)] at hr
    cases hr
  · intro h0
    obtain ⟨tb', h1, _⟩ := hpos h0 (tb.ll.length + 2) (by omega)
    exact ⟨_, _, h1⟩

/-- Witness for C20: in the full table `exThree` (`maxEntry = 3`, three elements) `add` returns
and drops one element from the front; in `exNeg` (`maxEntry = -1`) it never returns. -/
theorem add_terminates_iff_witness :
    (∃ tb', Table.add 5 0 0 exThree (some 4) (some 4) 0 = some (tb', exThree.fresh) ∧
      tb'.ll = (exThree.ll ++ [exThree.fresh]).drop (if exThree.maxEntry = 0 then 0
        else (max 0 ((exThree.ll.length : Int) + 1 - exThree.maxEntry)).toNat) ∧
      (1 ≤ exThree.maxEntry → tb'.ll =
        exThree.ll.drop (max 0 ((exThree.ll.length : Int) + 1 - exThree.maxEntry)).toNat ++
          [exThree.fresh])) ∧
    (∀ fuel, Table.add fuel 0 0 exNeg (some 1) (some 10) 0 = none) :=
  ⟨(add_terminates_iff exThree 0 0 (some 4) (some 4) 0).2.1 (by decide) 5 (by decide),
    (add_terminates_iff exNeg 0 0 (some 1) (some 10) 0).2.2 (by decide)⟩

end Claims

end Memo
